import Mathlib

/-!
Verification of the storage abstraction layer of `om_apex_mcp`
(`src/om_apex_mcp/storage.py`).

The development shallowly embeds the two storage backends:

* `LocalStorage` — filesystem-backed: files are modelled as an association
  list from relative path to raw byte content (`List Nat`, each entry < 256),
  together with the set of created directories and a set of permission-locked
  paths (used to model `PermissionError`).
* `GoogleDriveStorage` — Drive-API backed: the drive is a list of folder
  objects and file objects carrying opaque ids, plus the two process-lifetime
  path→id caches.  Listing queries issued against the API are returned
  explicitly so that claims about query counts and cache reuse can be stated.

Python library functions used by the source (`json.dumps` / `json.loads`
with `indent=2`, UTF-8 text codecs, `pathlib.PurePath.with_suffix`,
`str.split` / `str.strip` / `sorted(..., reverse=True)`) are embedded as
executable Lean functions over `List Char` / `List Nat`, faithful to their
documented behaviour, and the round-trip facts the claims depend on
(UTF-8 decode of encode, `loads` of `dumps`) are proved, not assumed.

Strings are manipulated through their underlying character lists throughout
(core `String` functions based on byte iterators do not reduce in the
kernel); `String` values appear only as the model's path/name type.
-/

namespace OmApex

/-! ### Character classes and low-level helpers -/
/-- Decimal digit test on the code point (same class as Python's parser). -/
def isDigitC (c : Char) : Bool := decide (48 ≤ c.toNat) && decide (c.toNat ≤ 57)

/-- JSON insignificant whitespace: space, tab, newline, carriage return. -/
def isWsC (c : Char) : Bool :=
  decide (c.toNat = 32) || decide (c.toNat = 9) || decide (c.toNat = 10) || decide (c.toNat = 13)

/-! ### UTF-8 codec

`LocalStorage` opens every file with `encoding="utf-8"`;
`GoogleDriveStorage` calls `.encode("utf-8")` / `.decode("utf-8")` on
upload/download.  File content is therefore modelled as raw bytes and the
codec is embedded executably.  The decoder is strict, like Python's default
`errors="strict"`: it rejects stray continuation bytes, truncated
sequences, overlong encodings, surrogate code points and values beyond
U+10FFFF, returning `none` (a `UnicodeDecodeError`). -/
def utf8EncodeChar (c : Char) : List Nat :=
  if c.toNat < 0x80 then [c.toNat]
  else if c.toNat < 0x800 then [0xC0 + c.toNat / 64, 0x80 + c.toNat % 64]
  else if c.toNat < 0x10000 then
    [0xE0 + c.toNat / 4096, 0x80 + c.toNat / 64 % 64, 0x80 + c.toNat % 64]
  else
    [0xF0 + c.toNat / 262144, 0x80 + c.toNat / 4096 % 64, 0x80 + c.toNat / 64 % 64,
      0x80 + c.toNat % 64]

def utf8Encode (s : List Char) : List Nat := (s.map utf8EncodeChar).flatten

/-- A UTF-8 continuation byte. -/
def isContB (b : Nat) : Bool := decide (0x80 ≤ b) && decide (b < 0xC0)

/-- Decode the two-byte sequence continuation. -/
def utf8Two (b : Nat) : List Nat → Option (Nat × List Nat)
  | b2 :: l2 =>
    if isContB b2 then
      if (b - 0xC0) * 64 + (b2 - 0x80) < 0x80 then none
      else some ((b - 0xC0) * 64 + (b2 - 0x80), l2)
    else none
  | [] => none

/-- Decode the three-byte sequence continuation (rejecting overlong forms
and surrogate code points, as Python's strict decoder does). -/
def utf8Three (b : Nat) : List Nat → Option (Nat × List Nat)
  | b2 :: b3 :: l3 =>
    if isContB b2 && isContB b3 then
      if (b - 0xE0) * 4096 + (b2 - 0x80) * 64 + (b3 - 0x80) < 0x800 then none
      else if 0xD800 ≤ (b - 0xE0) * 4096 + (b2 - 0x80) * 64 + (b3 - 0x80) ∧
          (b - 0xE0) * 4096 + (b2 - 0x80) * 64 + (b3 - 0x80) ≤ 0xDFFF then none
      else some ((b - 0xE0) * 4096 + (b2 - 0x80) * 64 + (b3 - 0x80), l3)
    else none
  | _ => none

/-- Decode the four-byte sequence continuation. -/
def utf8Four (b : Nat) : List Nat → Option (Nat × List Nat)
  | b2 :: b3 :: b4 :: l4 =>
    if isContB b2 && isContB b3 && isContB b4 then
      if (b - 0xF0) * 262144 + (b2 - 0x80) * 4096 + (b3 - 0x80) * 64 + (b4 - 0x80) < 0x10000 then
        none
      else if 0x110000 ≤ (b - 0xF0) * 262144 + (b2 - 0x80) * 4096 + (b3 - 0x80) * 64 +
          (b4 - 0x80) then none
      else some ((b - 0xF0) * 262144 + (b2 - 0x80) * 4096 + (b3 - 0x80) * 64 + (b4 - 0x80), l4)
    else none
  | _ => none

/-- Decode one scalar value from the head of a byte list. -/
def utf8DecodeOne : List Nat → Option (Nat × List Nat)
  | [] => none
  | b :: l =>
    if b < 0x80 then some (b, l)
    else if b < 0xC0 then none
    else if b < 0xE0 then utf8Two b l
    else if b < 0xF0 then utf8Three b l
    else if b < 0xF8 then utf8Four b l
    else none

def utf8DecodeLoop : Nat → List Nat → Option (List Char)
  | _, [] => some []
  | 0, _ :: _ => none
  | fuel + 1, b :: l =>
    match utf8DecodeOne (b :: l) with
    | some (n, rest) => (utf8DecodeLoop fuel rest).map (fun cs => Char.ofNat n :: cs)
    | none => none

def utf8Decode (l : List Nat) : Option (List Char) := utf8DecodeLoop l.length l

/-! ### JSON values

`Record`s are JSON-serializable mappings.  The embedding covers the JSON
fragment the storage layer round-trips: `null`, booleans, integers
(Python's `int`; `float` is out of scope of the claims), strings, arrays
and string-keyed objects, as a mutual inductive family. -/
mutual
inductive Jval where
  | null : Jval
  | bool (b : Bool) : Jval
  | num (n : Int) : Jval
  | str (s : List Char) : Jval
  | arr (xs : Jarr) : Jval
  | obj (ms : Jobj) : Jval
  deriving DecidableEq
inductive Jarr where
  | nil : Jarr
  | cons (hd : Jval) (tl : Jarr) : Jarr
  deriving DecidableEq
inductive Jobj where
  | nil : Jobj
  | cons (k : List Char) (v : Jval) (tl : Jobj) : Jobj
  deriving DecidableEq
end

/-- The empty mapping: what `load_json` returns on every failure path. -/
def jempty : Jval := Jval.obj Jobj.nil

mutual
def sizeV : Jval → Nat
  | .null => 1
  | .bool _ => 1
  | .num _ => 1
  | .str _ => 1
  | .arr xs => sizeA xs + 1
  | .obj ms => sizeO ms + 1
  termination_by structural v => v
def sizeA : Jarr → Nat
  | .nil => 0
  | .cons x xs => sizeV x + sizeA xs + 1
  termination_by structural xs => xs
def sizeO : Jobj → Nat
  | .nil => 0
  | .cons _ v ms => sizeV v + sizeO ms + 1
  termination_by structural ms => ms
end

/-! ### `json.dumps(..., indent=2)`

`LocalStorage.save_json` serializes with
`json.dump(data, f, indent=2, ensure_ascii=False)`;
`GoogleDriveStorage.save_json` with `json.dumps(data, indent=2)`
(`ensure_ascii` defaulting to `True`).  The two modes differ only in
string escaping: ASCII mode replaces every code point ≥ 0x7F by `\uXXXX`
escapes (a surrogate pair beyond U+FFFF).  Layout with `indent=2` is:
item separator `",\n" + indent`, key separator `": "`. -/
def digitChar (d : Nat) : Char := Char.ofNat (48 + d)

/-- Most-significant-first decimal digits of `n`; `fuel ≥ n` suffices. -/
def natCharsAux : Nat → Nat → List Char
  | 0, _ => []
  | _, 0 => []
  | fuel + 1, n => natCharsAux fuel (n / 10) ++ [digitChar (n % 10)]

/-- Python's decimal rendering of a nonnegative integer. -/
def natChars (n : Nat) : List Char := if n = 0 then ['0'] else natCharsAux n n

def dumpInt (n : Int) : List Char :=
  if n < 0 then '-' :: natChars n.natAbs else natChars n.toNat

def hexDigChar (d : Nat) : Char :=
  if d < 10 then Char.ofNat (48 + d) else Char.ofNat (87 + d)

/-- Python's `\uXXXX` escape payload (`"%04x" % n`, lowercase). -/
def hex4 (n : Nat) : List Char :=
  [hexDigChar (n / 4096 % 16), hexDigChar (n / 256 % 16), hexDigChar (n / 16 % 16),
    hexDigChar (n % 16)]

/-- Escape one character the way `json.encoder` does: the short escapes of
`ESCAPE_DCT`, `\uXXXX` for other control characters, and — in ASCII mode —
`\uXXXX` (or a surrogate pair) for every non-ASCII character. -/
def escChar (ascii : Bool) (c : Char) : List Char :=
  if c = '"' then ['\\', '"']
  else if c = '\\' then ['\\', '\\']
  else if c = '\n' then ['\\', 'n']
  else if c = '\t' then ['\\', 't']
  else if c = '\r' then ['\\', 'r']
  else if c.toNat = 8 then ['\\', 'b']
  else if c.toNat = 12 then ['\\', 'f']
  else if c.toNat < 0x20 then '\\' :: 'u' :: hex4 c.toNat
  else if ascii && decide (0x7F ≤ c.toNat) then
    if c.toNat < 0x10000 then '\\' :: 'u' :: hex4 c.toNat
    else '\\' :: 'u' :: hex4 (0xD800 + (c.toNat - 0x10000) / 0x400) ++
      '\\' :: 'u' :: hex4 (0xDC00 + (c.toNat - 0x10000) % 0x400)
  else [c]

def escSeq (ascii : Bool) (s : List Char) : List Char := (s.map (escChar ascii)).flatten

def dumpStr (ascii : Bool) (s : List Char) : List Char := '"' :: (escSeq ascii s ++ ['"'])

/-- Two-space indentation at nesting depth `lvl`. -/
def ind (lvl : Nat) : List Char := List.replicate (2 * lvl) ' '

/-- The serialized keyword literals. -/
def litNull : List Char := ['n', 'u', 'l', 'l']

def litTrue : List Char := ['t', 'r', 'u', 'e']

def litFalse : List Char := ['f', 'a', 'l', 's', 'e']

mutual
def dumpVal (a : Bool) (lvl : Nat) : Jval → List Char
  | .null => litNull
  | .bool true => litTrue
  | .bool false => litFalse
  | .num n => dumpInt n
  | .str s => dumpStr a s
  | .arr .nil => ['[', ']']
  | .arr (.cons x xs) =>
    '[' :: '\n' :: (ind (lvl + 1) ++ dumpVal a (lvl + 1) x ++ dumpArrTail a (lvl + 1) xs ++
      '\n' :: (ind lvl ++ [']']))
  | .obj .nil => ['{', '}']
  | .obj (.cons k v ms) =>
    '{' :: '\n' :: (ind (lvl + 1) ++ dumpStr a k ++ ':' :: ' ' :: dumpVal a (lvl + 1) v ++
      dumpObjTail a (lvl + 1) ms ++ '\n' :: (ind lvl ++ ['}']))
  termination_by structural v => v
def dumpArrTail (a : Bool) (lvl : Nat) : Jarr → List Char
  | .nil => []
  | .cons x xs => ',' :: '\n' :: (ind lvl ++ dumpVal a lvl x ++ dumpArrTail a lvl xs)
  termination_by structural xs => xs
def dumpObjTail (a : Bool) (lvl : Nat) : Jobj → List Char
  | .nil => []
  | .cons k v ms =>
    ',' :: '\n' :: (ind lvl ++ dumpStr a k ++ ':' :: ' ' :: dumpVal a lvl v ++
      dumpObjTail a lvl ms)
  termination_by structural ms => ms
end

/-- `json.dumps(v, indent=2)`, parameterized by `ensure_ascii`. -/
def json_dumps (ascii : Bool) (v : Jval) : List Char := dumpVal ascii 0 v

/-! ### `json.loads`

A strict recursive-descent parser for the fragment above, consuming a
character list and returning the parsed value and the unconsumed rest.
Recursion is fueled; `json_loads` supplies fuel exceeding the input length,
which is shown sufficient for every serialized value.  Deviations from
CPython kept out of scope of the claims: floats/exponents are rejected,
and lone surrogate `\uXXXX` escapes (representable in Python strings but
not as Unicode scalar values) are rejected. -/
def skipWs : List Char → List Char
  | c :: l => if isWsC c then skipWs l else c :: l
  | [] => []

def hexDigVal (c : Char) : Option Nat :=
  if 48 ≤ c.toNat ∧ c.toNat ≤ 57 then some (c.toNat - 48)
  else if 97 ≤ c.toNat ∧ c.toNat ≤ 102 then some (c.toNat - 87)
  else if 65 ≤ c.toNat ∧ c.toNat ≤ 70 then some (c.toNat - 55)
  else none

def escShort (c : Char) : Option Char :=
  if c = '"' then some '"'
  else if c = '\\' then some '\\'
  else if c = '/' then some '/'
  else if c = 'n' then some '\n'
  else if c = 't' then some '\t'
  else if c = 'r' then some '\r'
  else if c = 'b' then some (Char.ofNat 8)
  else if c = 'f' then some (Char.ofNat 12)
  else none

/-- Scan one unit of a JSON string body: `some (none, rest)` when the
closing quote was consumed, `some (some c, rest)` for one decoded
character, `none` on malformed input. -/
def lowStep (hi : Nat) : List Char → Option (Option Char × List Char)
  | g1 :: g2 :: g3 :: g4 :: l3 =>
    match hexDigVal g1, hexDigVal g2, hexDigVal g3, hexDigVal g4 with
    | some e1, some e2, some e3, some e4 =>
      if 0xDC00 ≤ ((e1 * 16 + e2) * 16 + e3) * 16 + e4 ∧
          ((e1 * 16 + e2) * 16 + e3) * 16 + e4 < 0xE000 then
        some (some (Char.ofNat (0x10000 + (hi - 0xD800) * 1024 +
          (((e1 * 16 + e2) * 16 + e3) * 16 + e4 - 0xDC00))), l3)
      else none
    | _, _, _, _ => none
  | _ => none

/-- After a high surrogate `\uXXXX`, expect the `\uXXXX` low surrogate. -/
def pairStep (hi : Nat) : List Char → Option (Option Char × List Char)
  | s1 :: s2 :: l =>
    if s1 = '\\' ∧ s2 = 'u' then lowStep hi l else none
  | _ => none

/-- Decode a `\uXXXX` escape (possibly a surrogate pair). -/
def uStep : List Char → Option (Option Char × List Char)
  | h1 :: h2 :: h3 :: h4 :: l2 =>
    match hexDigVal h1, hexDigVal h2, hexDigVal h3, hexDigVal h4 with
    | some d1, some d2, some d3, some d4 =>
      if 0xD800 ≤ ((d1 * 16 + d2) * 16 + d3) * 16 + d4 ∧
          ((d1 * 16 + d2) * 16 + d3) * 16 + d4 < 0xDC00 then
        pairStep (((d1 * 16 + d2) * 16 + d3) * 16 + d4) l2
      else if 0xDC00 ≤ ((d1 * 16 + d2) * 16 + d3) * 16 + d4 ∧
          ((d1 * 16 + d2) * 16 + d3) * 16 + d4 < 0xE000 then none
      else some (some (Char.ofNat (((d1 * 16 + d2) * 16 + d3) * 16 + d4)), l2)
    | _, _, _, _ => none
  | _ => none

/-- Decode one backslash escape. -/
def escStep : List Char → Option (Option Char × List Char)
  | [] => none
  | e :: l1 =>
    if e = 'u' then uStep l1
    else
      match escShort e with
      | some d => some (some d, l1)
      | none => none

def strStep : List Char → Option (Option Char × List Char)
  | [] => none
  | c :: l =>
    if c = '"' then some (none, l)
    else if c = '\\' then escStep l
    else some (some c, l)

def parseStrLoop : Nat → List Char → Option (List Char × List Char)
  | 0, _ => none
  | fuel + 1, l =>
    match strStep l with
    | some (none, rest) => some ([], rest)
    | some (some c, rest) => (parseStrLoop fuel rest).map (fun p => (c :: p.1, p.2))
    | none => none

/-- Parse the body of a JSON string (after the opening quote) up to and
including the closing quote. -/
def parseStrBody (l : List Char) : Option (List Char × List Char) :=
  parseStrLoop l.length l

def parseDigits (l : List Char) : Option (Nat × List Char) :=
  if l.takeWhile isDigitC = [] then none
  else some ((l.takeWhile isDigitC).foldl (fun a c => 10 * a + (c.toNat - 48)) 0,
    l.dropWhile isDigitC)

/-- Recognize the tail of a three-letter keyword. -/
def kw3 (c1 c2 c3 : Char) (v : Jval) : List Char → Option (Jval × List Char)
  | a :: b :: d :: r => if a = c1 ∧ b = c2 ∧ d = c3 then some (v, r) else none
  | _ => none

/-- Recognize the tail of a four-letter keyword. -/
def kw4 (c1 c2 c3 c4 : Char) (v : Jval) : List Char → Option (Jval × List Char)
  | a :: b :: d :: e :: r => if a = c1 ∧ b = c2 ∧ d = c3 ∧ e = c4 then some (v, r) else none
  | _ => none

mutual
def parseVal : Nat → List Char → Option (Jval × List Char)
  | 0, _ => none
  | fuel + 1, l =>
    match skipWs l with
    | [] => none
    | c :: l1 =>
      if c = 'n' then kw3 'u' 'l' 'l' .null l1
      else if c = 't' then kw3 'r' 'u' 'e' (.bool true) l1
      else if c = 'f' then kw4 'a' 'l' 's' 'e' (.bool false) l1
      else if c = '"' then (parseStrBody l1).map (fun p => (.str p.1, p.2))
      else if c = '-' then
        match parseDigits l1 with
        | some (m, r) => some (.num (-(m : Int)), r)
        | none => none
      else if isDigitC c then
        match parseDigits (c :: l1) with
        | some (m, r) => some (.num (m : Int), r)
        | none => none
      else if c = '[' then
        match skipWs l1 with
        | [] => none
        | d :: l2 =>
          if d = ']' then some (.arr .nil, l2)
          else (parseArrTail fuel (d :: l2)).map (fun p => (.arr p.1, p.2))
      else if c = '{' then
        match skipWs l1 with
        | [] => none
        | d :: l2 =>
          if d = '}' then some (.obj .nil, l2)
          else (parseObjTail fuel (d :: l2)).map (fun p => (.obj p.1, p.2))
      else none
def parseArrTail : Nat → List Char → Option (Jarr × List Char)
  | 0, _ => none
  | fuel + 1, l =>
    match parseVal fuel l with
    | some (v, r) =>
      match skipWs r with
      | [] => none
      | d :: r2 =>
        if d = ',' then (parseArrTail fuel r2).map (fun p => (.cons v p.1, p.2))
        else if d = ']' then some (.cons v .nil, r2)
        else none
    | none => none
def parseObjTail : Nat → List Char → Option (Jobj × List Char)
  | 0, _ => none
  | fuel + 1, l =>
    match skipWs l with
    | [] => none
    | d :: r =>
      if d = '"' then
        match parseStrBody r with
        | some (k, r1) =>
          match skipWs r1 with
          | [] => none
          | d2 :: r2 =>
            if d2 = ':' then
              match parseVal fuel r2 with
              | some (v, r3) =>
                match skipWs r3 with
                | [] => none
                | d3 :: r4 =>
                  if d3 = ',' then (parseObjTail fuel r4).map (fun p => (.cons k v p.1, p.2))
                  else if d3 = '}' then some (.cons k v .nil, r4)
                  else none
              | none => none
            else none
        | none => none
      else none
end

/-- `json.loads`: parse a whole document, requiring only insignificant
whitespace after the value (else Python raises "Extra data"). -/
def json_loads (s : List Char) : Option Jval :=
  match parseVal (s.length + 1) s with
  | some (v, r) => if skipWs r = [] then some v else none
  | none => none

/-! ### Round-trip: `json_loads` of `json_dumps` -/
/-- The rest of the input does not begin with a decimal digit (so a number
token just printed cannot be extended by what follows). -/
def headNotDigit : List Char → Bool
  | [] => true
  | c :: _ => !isDigitC c

/-! ### Python string and path helpers

Everything operates on `String.data`; `String` itself is used only as the
model's path/name type (its core iterator-based functions do not reduce in
the kernel). -/
/-- `str.split(sep)` with an explicit separator: `"" → [""]`,
adjacent separators produce empty fields. -/
def chSplit (sep : Char) : List Char → List (List Char)
  | [] => [[]]
  | c :: l =>
    match chSplit sep l with
    | h :: t => if c = sep then [] :: h :: t else (c :: h) :: t
    | [] => [[c]]

/-- `sep.join(parts)` over character lists, with `'/'` as separator. -/
def joinSlash : List (List Char) → List Char
  | [] => []
  | [x] => x
  | x :: xs => x ++ '/' :: joinSlash xs

/-- `str.strip("/")`. -/
def stripSlashes (s : String) : String :=
  String.mk (((s.data.dropWhile (fun c => c = '/')).reverse.dropWhile
    (fun c => c = '/')).reverse)

/-- Split at the last slash — `path.rsplit("/", 1)` when a slash occurs. -/
def rsplitSlash (s : String) : Option (String × String) :=
  let r := s.data.reverse
  let ext := r.takeWhile (fun c => c ≠ '/')
  if ext.length = r.length then none
  else some (String.mk ((r.drop (ext.length + 1)).reverse), String.mk ext.reverse)

/-- Field list of `path.strip("/").split("/")`. -/
def splitSlash (s : String) : List String := (chSplit '/' s.data).map String.mk

/-- `"/".join(parts)` on strings. -/
def joinSlashS (parts : List String) : String := String.mk (joinSlash (parts.map String.data))

/-- Boolean membership on string lists. -/
def hasStr (l : List String) (s : String) : Bool := l.any (fun x => decide (x = s))

/-- `sub in s` (substring test). -/
def isSubChars (sub : List Char) : List Char → Bool
  | [] => decide (sub = [])
  | c :: t => sub.isPrefixOf (c :: t) || isSubChars sub t

/-- Python string comparison (lexicographic on code points). -/
def strLeC : List Char → List Char → Bool
  | [], _ => true
  | _ :: _, [] => false
  | x :: xs, y :: ys => if x = y then strLeC xs ys else decide (x.toNat < y.toNat)

def strLe (a b : String) : Bool := strLeC a.data b.data

/-- Insertion into a descending-sorted list — models
`sorted(xs, reverse=True)` (which agrees with any correct descending sort
on string lists, equal keys being identical). -/
def insertDesc (x : String) : List String → List String
  | [] => [x]
  | y :: ys => if strLe y x then x :: y :: ys else y :: insertDesc x ys

def sortDesc (l : List String) : List String := l.foldr insertDesc []

/-! ### `pathlib.PurePath.with_suffix(".tmp")`

`save_json` computes `temp_path = filepath.with_suffix(".tmp")`.
`with_suffix` replaces the *final* component's suffix: the part from its
last dot, provided that dot is neither the first nor the last character
of the component (so `".bashrc"` and `"foo."` have no suffix and the new
suffix is appended instead). -/
/-- The final path component minus its suffix, per `pathlib` rules. -/
def stemChars (l : List Char) : List Char :=
  let ext := l.reverse.takeWhile (fun c => c ≠ '.')
  if ext.length = l.length then l
  else if ext.length = 0 then l
  else if ext.length = l.length - 1 then l
  else l.take (l.length - ext.length - 1)

/-- `with_suffix(".tmp")` on one path component. -/
def compTemp (comp : List Char) : List Char := stemChars comp ++ ".tmp".data

def mapLast (f : List Char → List Char) : List (List Char) → List (List Char)
  | [] => []
  | [x] => [f x]
  | x :: xs => x :: mapLast f xs

/-- The temporary path `save_json` writes to:
`filepath.with_suffix(".tmp")`, relative to the data directory. -/
def tempName (filename : String) : String :=
  String.mk (joinSlash (mapLast compTemp (chSplit '/' filename.data)))

/-- The final component of a relative path. -/
def lastComp (filename : String) : List Char := (chSplit '/' filename.data).getLastD []

/-! ### `LocalStorage`

The filesystem is an association list from relative path to raw bytes
(first binding wins), plus the set of directories that exist and a set of
permission-locked paths modelling `PermissionError` (reads of a locked
path raise, writes to a locked path raise; both are translated exactly as
the source's `except` clauses do).  The data directory root (for
`load_json`/`save_json`) and the shared drive root (for the text/blob
operations) are elided: every operation keys the store by the relative
path it is given, and no claim mixes the two namespaces. -/
structure LFS where
  files : List (String × List Nat)
  dirs : List String
  locked : List String
  deriving DecidableEq

def lookupF (fs : List (String × List Nat)) (p : String) : Option (List Nat) :=
  match fs with
  | [] => none
  | (q, c) :: t => if q = p then some c else lookupF t p

def setF (fs : List (String × List Nat)) (p : String) (c : List Nat) :
    List (String × List Nat) :=
  match fs with
  | [] => [(p, c)]
  | (q, d) :: t => if q = p then (p, c) :: t else (q, d) :: setF t p c

def delF (fs : List (String × List Nat)) (p : String) : List (String × List Nat) :=
  fs.filter (fun e => decide (e.1 ≠ p))

/-- All proper directory prefixes of a relative path (what
`filepath.parent.mkdir(parents=True, exist_ok=True)` creates). -/
def parentsOf (p : String) : List String :=
  let parts := (chSplit '/' p.data).dropLast
  (List.range parts.length).map (fun i => String.mk (joinSlash (parts.take (i + 1))))

def mkdirParents (st : LFS) (p : String) : LFS :=
  { st with dirs := st.dirs ++ parentsOf p }

/-- Raw bytes stored at a path. -/
def lfsRead (st : LFS) (p : String) : Option (List Nat) := lookupF st.files p

/-- `latin-1` maps each byte to the code point of the same value and never
fails (the store only holds bytes < 256; `% 256` keeps the function total
on ill-formed states). -/
def latin1Decode (bytes : List Nat) : List Char := bytes.map (fun b => Char.ofNat (b % 256))

namespace LocalStorage

/-- `LocalStorage.load_json`: empty mapping on any failure
(absent file, `PermissionError`, decode error, `json.JSONDecodeError`). -/
def load_json (st : LFS) (filename : String) : Jval :=
  match lookupF st.files filename with
  | none => jempty
  | some bytes =>
    if hasStr st.locked filename then jempty
    else
      match utf8Decode bytes with
      | none => jempty
      | some chars =>
        match json_loads chars with
        | some v => v
        | none => jempty

/-- `LocalStorage.save_json`: create parent directories, serialize with
`json.dump(..., indent=2, ensure_ascii=False)` into the sibling `.tmp`
file, then `os.replace` it over the destination.  A `PermissionError`
opening the temporary file propagates; the rename replaces whatever inode
was at the destination (clearing any permission lock on that path). -/
def save_json (st : LFS) (filename : String) (data : Jval) : Except String LFS :=
  let st1 := mkdirParents st filename
  let temp := tempName filename
  if hasStr st1.locked temp then .error "PermissionError"
  else
    let bytes := utf8Encode (json_dumps false data)
    let st2 := { st1 with files := setF st1.files temp bytes }
    .ok { files := setF (delF st2.files temp) filename bytes,
          dirs := st2.dirs,
          locked := st2.locked.filter (fun q => decide (q ≠ filename)) }

/-- Every filesystem state an interrupted `save_json` can leave behind:
after the `mkdir`, after each partial write of the temporary file
(`open(temp, "w")` truncates, then content is written left to right), and
after the final rename. -/
def saveJsonStates (st : LFS) (filename : String) (data : Jval) : List LFS :=
  let st1 := mkdirParents st filename
  let temp := tempName filename
  let bytes := utf8Encode (json_dumps false data)
  st1 ::
    (List.range (bytes.length + 1)).map
      (fun k => { st1 with files := setF st1.files temp (bytes.take k) }) ++
    [{ files := setF (delF (setF st1.files temp bytes) temp) filename bytes,
       dirs := st1.dirs,
       locked := st1.locked.filter (fun q => decide (q ≠ filename)) }]

/-- `LocalStorage.read_text`: `None` when absent or on `PermissionError`;
on a `UnicodeDecodeError` from the primary UTF-8 read, a single retry with
`latin-1` (which always succeeds). -/
def read_text (st : LFS) (path : String) : Option (List Char) :=
  match lookupF st.files path with
  | none => none
  | some bytes =>
    if hasStr st.locked path then none
    else
      match utf8Decode bytes with
      | some s => some s
      | none => some (latin1Decode bytes)

/-- `LocalStorage.write_text`: create parent directories, truncate-write. -/
def write_text (st : LFS) (path : String) (content : List Char) : Except String LFS :=
  let st1 := mkdirParents st path
  if hasStr st1.locked path then .error "PermissionError"
  else .ok { st1 with files := setF st1.files path (utf8Encode content) }

/-- `LocalStorage.append_text`: create parent directories, append
(`open(path, "a")` creates the file when absent). -/
def append_text (st : LFS) (path : String) (content : List Char) : Except String LFS :=
  let st1 := mkdirParents st path
  if hasStr st1.locked path then .error "PermissionError"
  else
    .ok { st1 with
      files := setF st1.files path ((lookupF st1.files path).getD [] ++ utf8Encode content) }

/-- A directory exists when it was created or some stored file lies under
it (the model tracks files; a really-existing but empty unlisted directory
is represented through `dirs`). -/
def nameUnder (d p : String) : Option String :=
  if (d.data ++ ['/']).isPrefixOf p.data then
    let nm := p.data.drop (d.data.length + 1)
    if nm.any (fun c => decide (c = '/')) then none else some (String.mk nm)
  else none

def dirExists (st : LFS) (d : String) : Bool :=
  hasStr st.dirs d || st.files.any (fun e => (nameUnder d e.1).isSome)

/-- `fnmatch` restricted to the shapes the storage layer uses: a leading
`*` followed by a wildcard-free suffix (`"*.md"`), or a wildcard-free
pattern matched exactly. -/
def globMatch (pattern name : List Char) : Bool :=
  match pattern with
  | '*' :: suffix => suffix.isSuffixOf name
  | p => decide (p = name)

/-- `LocalStorage.list_files`: non-recursive glob of the directory,
results as root-relative paths, sorted descending
(`sorted(..., reverse=True)`). -/
def list_files (st : LFS) (directory : String) (pattern : String) : List String :=
  if dirExists st directory then
    sortDesc (st.files.filterMap (fun e =>
      match nameUnder directory e.1 with
      | some name => if globMatch pattern.data name.data then some e.1 else none
      | none => none))
  else []

/-- `LocalStorage.file_exists`. -/
def file_exists (st : LFS) (path : String) : Bool :=
  (lookupF st.files path).isSome || hasStr st.dirs path

end LocalStorage

/-! ### `GoogleDriveStorage`

The drive holds folder and file objects with opaque ids.  A listing query
`files().list(q=...)` is modelled by filtering these lists; "first match"
is the head of the filtered list.  Newly created files are prepended,
reflecting that the Drive API returns a fresh id that shadows none and is
found by subsequent id lookups.  `trashed` objects and result pagination
are elided (every modelled object is live, listings return a single full
page).  Each operation returns its result together with the state after
the call — exceptions propagate to the caller *with* the cache mutations
made before the raise, exactly as attribute mutation on `self` behaves.
`resolveFolderIdQ` additionally returns the listing queries it issued, so
claims about query counts and cache reuse are statable. -/
deriving instance DecidableEq for Except

structure RFile where
  id : String
  parent : String
  name : String
  content : List Nat
  deriving DecidableEq

structure RFolder where
  id : String
  parent : String
  name : String
  deriving DecidableEq

structure Drive where
  folders : List RFolder
  files : List RFile
  counter : Nat
  deriving DecidableEq

structure RState where
  drive : Drive
  driveId : String
  fileCache : List (String × String)
  folderCache : List (String × String)
  deriving DecidableEq

def alookup (m : List (String × String)) (k : String) : Option String :=
  match m with
  | [] => none
  | (k2, v) :: t => if k2 = k then some v else alookup t k

def assocSet (m : List (String × String)) (k v : String) : List (String × String) :=
  match m with
  | [] => [(k, v)]
  | (k2, v2) :: t => if k2 = k then (k, v) :: t else (k2, v2) :: assocSet t k v

/-- `files().list` scoped to folders with a given name under a parent. -/
def queryFolders (d : Drive) (parentId name : String) : List RFolder :=
  d.folders.filter (fun f => decide (f.name = name) && decide (f.parent = parentId))

/-- `files().list` scoped to files (any type) with a given name under a parent. -/
def queryFilesByName (d : Drive) (parentId name : String) : List RFile :=
  d.files.filter (fun f => decide (f.name = name) && decide (f.parent = parentId))

/-- `files().list` over all children of a folder. -/
def queryChildren (d : Drive) (parentId : String) : List RFile :=
  d.files.filter (fun f => decide (f.parent = parentId))

namespace GoogleDriveStorage

/-- The per-segment walk of `_resolve_folder_id`.  `current_path` is
computed — as the source does — by `"/".join(parts[:parts.index(part)+1])`,
i.e. from the index of the *first* occurrence of the segment's string
value.  Returns the result, the folder-id cache as mutated so far, and
the listing queries issued (as parent-id/name pairs). -/
def rfLoop (d : Drive) (folderPath : String) (parts : List String) :
    List String → String → List (String × String) → List (String × String) →
      Except String String × List (String × String) × List (String × String)
  | [], parentId, cache, qs => (.ok parentId, cache, qs)
  | part :: rest, parentId, cache, qs =>
    let currentPath := joinSlashS (parts.take (parts.indexOf part + 1))
    match alookup cache currentPath with
    | some pid => rfLoop d folderPath parts rest pid cache qs
    | none =>
      match queryFolders d parentId part with
      | [] => (.error ("Folder not found: " ++ folderPath ++ " (missing: " ++ part ++ ")"),
          cache, qs ++ [(parentId, part)])
      | f :: _ =>
        rfLoop d folderPath parts rest f.id (assocSet cache currentPath f.id)
          (qs ++ [(parentId, part)])

/-- `_resolve_folder_id`, with the issued listing queries exposed. -/
def resolveFolderIdQ (st : RState) (folderPath : String) :
    Except String String × RState × List (String × String) :=
  if folderPath = "" ∨ folderPath = "." then (.ok st.driveId, st, [])
  else
    match alookup st.folderCache folderPath with
    | some fid => (.ok fid, st, [])
    | none =>
      let parts := splitSlash (stripSlashes folderPath)
      match rfLoop st.drive folderPath parts parts st.driveId st.folderCache [] with
      | (res, cache2, qs) => (res, { st with folderCache := cache2 }, qs)

/-- `_resolve_folder_id` (query log dropped). -/
def resolveFolderId (st : RState) (folderPath : String) : Except String String × RState :=
  match resolveFolderIdQ st folderPath with
  | (res, st2, _) => (res, st2)

/-- `path.strip("/").rsplit("/", 1)` split into folder path and filename. -/
def splitParent (path : String) : String × String :=
  match rsplitSlash (stripSlashes path) with
  | some (d, f) => (d, f)
  | none => ("", stripSlashes path)

/-- `_resolve_file_id`: check the file-id cache, resolve the folder
(treating folder-not-found as file-not-found), query by exact name, cache
and return the first match. -/
def resolveFileId (st : RState) (path : String) : Option String × RState :=
  match alookup st.fileCache path with
  | some fid => (some fid, st)
  | none =>
    match resolveFolderId st (splitParent path).1 with
    | (.error _, st2) => (none, st2)
    | (.ok parentId, st2) =>
      match queryFilesByName st2.drive parentId (splitParent path).2 with
      | [] => (none, st2)
      | f :: _ => (some f.id, { st2 with fileCache := assocSet st2.fileCache path f.id })

/-- `_download_content`: chunked download decoded as strict UTF-8. -/
def downloadContent (st : RState) (fid : String) : Except String (List Char) :=
  match st.drive.files.find? (fun f => decide (f.id = fid)) with
  | none => .error "HttpError 404"
  | some f =>
    match utf8Decode f.content with
    | some s => .ok s
    | none => .error "UnicodeDecodeError"

/-- `_upload_content`: update in place when the path resolves, otherwise
resolve the parent folder (propagating folder-not-found) and create. -/
def uploadContent (st : RState) (path : String) (content : List Char) :
    Except String String × RState :=
  match resolveFileId st path with
  | (some fid, st1) =>
    match st1.drive.files.find? (fun f => decide (f.id = fid)) with
    | none => (.error "HttpError 404", st1)
    | some _ =>
      (.ok fid, { st1 with drive := { st1.drive with
        files := st1.drive.files.map (fun f =>
          if f.id = fid then { f with content := utf8Encode content } else f) } })
  | (none, st1) =>
    match resolveFolderId st1 (splitParent path).1 with
    | (.error e, st2) => (.error e, st2)
    | (.ok parentId, st2) =>
      let newId := "f" ++ String.mk (natChars st2.drive.counter)
      (.ok newId,
        { st2 with
          drive := { folders := st2.drive.folders,
                     files := ⟨newId, parentId, (splitParent path).2,
                       utf8Encode content⟩ :: st2.drive.files,
                     counter := st2.drive.counter + 1 },
          fileCache := assocSet st2.fileCache path newId })

/-- `GoogleDriveStorage.load_json`: empty mapping when the path does not
resolve; otherwise download and `json.loads` — whose parse errors (and any
transport or decode error) propagate, unlike the local backend. -/
def load_json (st : RState) (filename : String) : Except String Jval × RState :=
  match resolveFileId st ("mcp-data/" ++ filename) with
  | (none, st1) => (.ok jempty, st1)
  | (some fid, st1) =>
    match downloadContent st1 fid with
    | .error e => (.error e, st1)
    | .ok content =>
      match json_loads content with
      | some v => (.ok v, st1)
      | none => (.error "JSONDecodeError", st1)

/-- `GoogleDriveStorage.save_json`: upsert of
`json.dumps(data, indent=2)` (ASCII mode). -/
def save_json (st : RState) (filename : String) (data : Jval) :
    Except String Unit × RState :=
  match uploadContent st ("mcp-data/" ++ filename) (json_dumps true data) with
  | (.error e, st1) => (.error e, st1)
  | (.ok _, st1) => (.ok (), st1)

/-- `GoogleDriveStorage.read_text`: none when the path does not resolve;
no fallback decoding — a `UnicodeDecodeError` propagates. -/
def read_text (st : RState) (path : String) : Except String (Option (List Char)) × RState :=
  match resolveFileId st path with
  | (none, st1) => (.ok none, st1)
  | (some fid, st1) =>
    match downloadContent st1 fid with
    | .error e => (.error e, st1)
    | .ok s => (.ok (some s), st1)

/-- `GoogleDriveStorage.write_text`: upsert. -/
def write_text (st : RState) (path : String) (content : List Char) :
    Except String Unit × RState :=
  match uploadContent st path content with
  | (.error e, st1) => (.error e, st1)
  | (.ok _, st1) => (.ok (), st1)

/-- `GoogleDriveStorage.append_text`: read current content (`if existing:`
— Python truthiness, so `None` and `""` both skip concatenation), then
upsert. -/
def append_text (st : RState) (path : String) (content : List Char) :
    Except String Unit × RState :=
  match read_text st path with
  | (.error e, st1) => (.error e, st1)
  | (.ok existing, st1) =>
    let newContent :=
      match existing with
      | some s => if s = [] then content else s ++ content
      | none => content
    match uploadContent st1 path newContent with
    | (.error e, st2) => (.error e, st2)
    | (.ok _, st2) => (.ok (), st2)

/-- `GoogleDriveStorage.list_files`: resolve the folder (not-found → `[]`),
query children with a `name contains suffix` filter derived from a leading
`*` in the pattern, cache every returned child's id, keep only names that
end with the suffix, and sort descending. -/
def list_files (st : RState) (directory : String) (pattern : String) :
    List String × RState :=
  match resolveFolderId st directory with
  | (.error _, st1) => ([], st1)
  | (.ok folderId, st1) =>
    let suffix : List Char :=
      match pattern.data with
      | '*' :: s => s
      | _ => []
    let apiFiles := (queryChildren st1.drive folderId).filter
      (fun f => decide (suffix = []) || isSubChars suffix f.name.data)
    let cache2 := apiFiles.foldl
      (fun m f => assocSet m (directory ++ "/" ++ f.name) f.id) st1.fileCache
    let st2 := { st1 with fileCache := cache2 }
    (sortDesc (apiFiles.filterMap (fun f =>
      if decide (suffix = []) || suffix.isSuffixOf f.name.data then
        some (directory ++ "/" ++ f.name)
      else none)), st2)

/-- `GoogleDriveStorage.file_exists`. -/
def file_exists (st : RState) (path : String) : Bool × RState :=
  match resolveFileId st path with
  | (fid, st1) => (fid.isSome, st1)

end GoogleDriveStorage

/-! ## Fixtures used by the claim witnesses and counterexamples -/
def c1R : Jval :=
  Jval.obj (Jobj.cons "tasks".data
    (Jval.arr (Jarr.cons
      (Jval.obj (Jobj.cons "id".data (Jval.str "TASK-1".data) Jobj.nil)) Jarr.nil))
    Jobj.nil)

def c1L : LFS := ⟨[], [], []⟩

def c1LSaved : LFS := (LocalStorage.save_json c1L "tasks.json" c1R).toOption.getD c1L

def c1RSt : RState := ⟨⟨[⟨"d1", "root", "mcp-data"⟩], [], 0⟩, "root", [], []⟩

def c1RSaved : RState := (GoogleDriveStorage.save_json c1RSt "tasks.json" c1R).2

def c2St : LFS := ⟨[("tasks.json", [123, 125])], [], []⟩

def c2R : Jval := Jval.obj (Jobj.cons "a".data (Jval.num 1) Jobj.nil)

def c2BadSt : LFS := ⟨[("x.tmp", [104, 105])], [], []⟩

def c2BadR : Jval := Jval.obj (Jobj.cons "a".data (Jval.num 12) Jobj.nil)

def c3Abs : LFS := ⟨[], [], []⟩

def c3Lock : LFS := ⟨[("a.json", [123])], [], ["a.json"]⟩

def c3Mal : LFS := ⟨[("a.json", [104, 105]), ("b.json", [255])], [], []⟩

def c3R : RState := ⟨⟨[], [], 0⟩, "root", [], []⟩

def c3Bad : RState :=
  ⟨⟨[⟨"d1", "root", "mcp-data"⟩], [⟨"f1", "d1", "a.json", [104, 105]⟩], 0⟩, "root", [], []⟩

def c7Abs : LFS := ⟨[], [], []⟩

def c7Fall : LFS := ⟨[("a.txt", [104, 255, 105])], [], []⟩

def c7R : RState := ⟨⟨[], [], 0⟩, "root", [], []⟩

def c7Bad : RState := ⟨⟨[], [⟨"f1", "root", "a.txt", [255]⟩], 0⟩, "root", [], [("a.txt", "f1")]⟩

def c4R : RState := ⟨⟨[], [], 0⟩, "root", [], []⟩

def c5St : RState := ⟨⟨[⟨"idA", "root", "a"⟩], [], 0⟩, "root", [], []⟩

def c6St : LFS :=
  ⟨[("logs/2026-01-01.md", [97]), ("logs/2026-01-03.md", [98]),
    ("logs/2026-01-02.md", [99])], [], []⟩

def c6R : RState :=
  ⟨⟨[⟨"dL", "root", "logs"⟩],
    [⟨"f1", "dL", "2026-01-01.md", [97]⟩, ⟨"f2", "dL", "2026-01-03.md", [98]⟩,
     ⟨"f3", "dL", "2026-01-02.md", [99]⟩], 0⟩, "root", [], []⟩

def c9R : RState :=
  ⟨⟨[⟨"dL", "root", "logs"⟩],
    [⟨"f1", "dL", "a.md", [97]⟩, ⟨"f2", "dL", "foo.md.bak", [98]⟩], 0⟩, "root", [], []⟩

def c8L : LFS := ⟨[("z.txt", [122])], [], []⟩

def c8R : RState :=
  ⟨⟨[⟨"dA", "root", "a"⟩], [⟨"f1", "dA", "other.txt", [97]⟩], 5⟩, "root", [], []⟩

/-! ## Theorems -/

theorem toNat_ofNat_of_valid (n : Nat) (h : n.isValidChar) : (Char.ofNat n).toNat = n := by
  rw [Char.ofNat, dif_pos h]
  simp [Char.ofNatAux, Char.toNat, UInt32.toNat]

theorem toNat_ofNat_small (n : Nat) (h : n < 0xd800) : (Char.ofNat n).toNat = n :=
  toNat_ofNat_of_valid n (Or.inl h)

theorem char_valid_nat (c : Char) :
    c.toNat < 0xd800 ∨ (0xdfff < c.toNat ∧ c.toNat < 0x110000) := c.valid

theorem char_toNat_lt (c : Char) : c.toNat < 0x110000 := by
  rcases char_valid_nat c with h | h
  · omega
  · exact h.2

theorem char_eq_of_toNat_eq {a b : Char} (h : a.toNat = b.toNat) : a = b := by
  have := congrArg Char.ofNat h
  rwa [Char.ofNat_toNat, Char.ofNat_toNat] at this

theorem utf8DecodeOne_enc (c : Char) (rest : List Nat) :
    utf8DecodeOne (utf8EncodeChar c ++ rest) = some (c.toNat, rest) := by
  have hv := char_valid_nat c
  have hlt := char_toNat_lt c
  by_cases h1 : c.toNat < 0x80
  · rw [utf8EncodeChar, if_pos h1]
    simp only [List.cons_append, List.nil_append]
    rw [utf8DecodeOne, if_pos h1]
  · by_cases h2 : c.toNat < 0x800
    · rw [utf8EncodeChar, if_neg h1, if_pos h2]
      simp only [List.cons_append, List.nil_append]
      rw [utf8DecodeOne, if_neg (by omega : ¬ (0xC0 + c.toNat / 64 < 0x80)),
        if_neg (by omega : ¬ (0xC0 + c.toNat / 64 < 0xC0)),
        if_pos (by omega : 0xC0 + c.toNat / 64 < 0xE0)]
      rw [utf8Two, if_pos (by simp only [isContB, Bool.and_eq_true, decide_eq_true_eq]; omega),
        if_neg (by omega : ¬ ((0xC0 + c.toNat / 64 - 0xC0) * 64 + (0x80 + c.toNat % 64 - 0x80)
          < 0x80))]
      have hval : (0xC0 + c.toNat / 64 - 0xC0) * 64 + (0x80 + c.toNat % 64 - 0x80) = c.toNat := by
        omega
      rw [hval]
    · by_cases h3 : c.toNat < 0x10000
      · rw [utf8EncodeChar, if_neg h1, if_neg h2, if_pos h3]
        simp only [List.cons_append, List.nil_append]
        rw [utf8DecodeOne, if_neg (by omega : ¬ (0xE0 + c.toNat / 4096 < 0x80)),
          if_neg (by omega : ¬ (0xE0 + c.toNat / 4096 < 0xC0)),
          if_neg (by omega : ¬ (0xE0 + c.toNat / 4096 < 0xE0)),
          if_pos (by omega : 0xE0 + c.toNat / 4096 < 0xF0)]
        rw [utf8Three, if_pos (by simp only [isContB, Bool.and_eq_true, decide_eq_true_eq]; omega)]
        have hval : (0xE0 + c.toNat / 4096 - 0xE0) * 4096 +
            (0x80 + c.toNat / 64 % 64 - 0x80) * 64 + (0x80 + c.toNat % 64 - 0x80) = c.toNat := by
          omega
        rw [if_neg (by omega), if_neg (by rw [hval]; rcases hv with h | h <;> omega), hval]
      · rw [utf8EncodeChar, if_neg h1, if_neg h2, if_neg h3]
        simp only [List.cons_append, List.nil_append]
        rw [utf8DecodeOne, if_neg (by omega : ¬ (0xF0 + c.toNat / 262144 < 0x80)),
          if_neg (by omega : ¬ (0xF0 + c.toNat / 262144 < 0xC0)),
          if_neg (by omega : ¬ (0xF0 + c.toNat / 262144 < 0xE0)),
          if_neg (by omega : ¬ (0xF0 + c.toNat / 262144 < 0xF0)),
          if_pos (by omega : 0xF0 + c.toNat / 262144 < 0xF8)]
        rw [utf8Four, if_pos (by simp only [isContB, Bool.and_eq_true, decide_eq_true_eq]; omega),
          if_neg (by omega), if_neg (by omega)]
        have hval : (0xF0 + c.toNat / 262144 - 0xF0) * 262144 +
            (0x80 + c.toNat / 4096 % 64 - 0x80) * 4096 +
            (0x80 + c.toNat / 64 % 64 - 0x80) * 64 + (0x80 + c.toNat % 64 - 0x80) = c.toNat := by
          omega
        rw [hval]

theorem utf8EncodeChar_ne_nil (c : Char) : utf8EncodeChar c ≠ [] := by
  rw [utf8EncodeChar]
  split
  · simp
  · split
    · simp
    · split <;> simp

theorem utf8DecodeLoop_enc (s : List Char) :
    ∀ fuel rest, s.length ≤ fuel →
      utf8DecodeLoop fuel (utf8Encode s ++ rest) =
        (utf8DecodeLoop (fuel - s.length) rest).map (fun cs => s ++ cs) := by
  induction s with
  | nil =>
    intro fuel rest _
    cases h : utf8DecodeLoop fuel rest <;> simp [utf8Encode, h]
  | cons c cs ih =>
    intro fuel rest hf
    have henc : utf8Encode (c :: cs) ++ rest = utf8EncodeChar c ++ (utf8Encode cs ++ rest) := by
      simp [utf8Encode]
    rw [henc]
    obtain ⟨b, t, hbt⟩ : ∃ b t, utf8EncodeChar c = b :: t := by
      cases h : utf8EncodeChar c with
      | nil => exact absurd h (utf8EncodeChar_ne_nil c)
      | cons b t => exact ⟨b, t, rfl⟩
    obtain ⟨f, rfl⟩ : ∃ f, fuel = f + 1 := by
      cases fuel with
      | zero => simp at hf
      | succ f => exact ⟨f, rfl⟩
    rw [hbt, List.cons_append, utf8DecodeLoop, ← List.cons_append, ← hbt,
      utf8DecodeOne_enc c (utf8Encode cs ++ rest)]
    dsimp only
    have hcs : cs.length ≤ f := by simpa using hf
    rw [ih f rest hcs]
    have hlen : f + 1 - (c :: cs).length = f - cs.length := by simp
    rw [hlen, Char.ofNat_toNat]
    cases utf8DecodeLoop (f - cs.length) rest <;> simp

/-- Strict UTF-8 decoding inverts encoding: Python text-mode writes followed
by text-mode reads are transparent. -/
theorem utf8Decode_encode (s : List Char) : utf8Decode (utf8Encode s) = some s := by
  have hlen : s.length ≤ (utf8Encode s).length := by
    induction s with
    | nil => simp [utf8Encode]
    | cons c cs ih =>
      have : utf8Encode (c :: cs) = utf8EncodeChar c ++ utf8Encode cs := by simp [utf8Encode]
      rw [this, List.length_append]
      have h1 : 1 ≤ (utf8EncodeChar c).length := by
        cases h : utf8EncodeChar c with
        | nil => exact absurd h (utf8EncodeChar_ne_nil c)
        | cons b t => simp
      simp only [List.length_cons]
      omega
  have := utf8DecodeLoop_enc s (utf8Encode s).length [] hlen
  rw [List.append_nil] at this
  rw [utf8Decode, this]
  have : utf8DecodeLoop ((utf8Encode s).length - s.length) [] = some [] := by
    cases h : (utf8Encode s).length - s.length with
    | zero => rfl
    | succ n => rfl
  rw [this]
  simp


theorem natCharsAux_eq_digits (fuel n : Nat) (h : n ≤ fuel) :
    natCharsAux fuel n = ((Nat.digits 10 n).map digitChar).reverse := by
  induction fuel generalizing n with
  | zero =>
    have : n = 0 := by omega
    subst this
    simp [natCharsAux]
  | succ f ih =>
    by_cases hn : n = 0
    · subst hn
      simp [natCharsAux]
    · obtain ⟨m, rfl⟩ : ∃ m, n = m + 1 := ⟨n - 1, by omega⟩
      rw [natCharsAux, ih ((m + 1) / 10) (by omega),
        Nat.digits_def' (by norm_num : 1 < 10) (by omega : 0 < m + 1)]
      · simp
      · omega

theorem skipWs_not {c : Char} (l : List Char) (h : isWsC c = false) :
    skipWs (c :: l) = c :: l := by
  rw [skipWs, h]
  simp

theorem skipWs_cons_ws {c : Char} (l : List Char) (h : isWsC c = true) :
    skipWs (c :: l) = skipWs l := by
  rw [skipWs, h]
  simp

theorem skipWs_ws_append {ws : List Char} (l : List Char) (h : ∀ c ∈ ws, isWsC c = true) :
    skipWs (ws ++ l) = skipWs l := by
  induction ws with
  | nil => simp
  | cons c cs ih =>
    simp only [List.cons_append]
    rw [skipWs, h c (by simp)]
    simp only [if_pos]
    exact ih (fun d hd => h d (by simp [hd]))

theorem ind_ws (lvl : Nat) : ∀ c ∈ ind lvl, isWsC c = true := by
  intro c hc
  rw [ind] at hc
  rw [List.eq_of_mem_replicate hc]
  decide

theorem takeWhile_append_all {p : Char → Bool} {xs : List Char} (ys : List Char)
    (h : ∀ a ∈ xs, p a = true) :
    (xs ++ ys).takeWhile p = xs ++ ys.takeWhile p := by
  induction xs with
  | nil => simp
  | cons a as ih =>
    simp only [List.cons_append, List.takeWhile_cons, h a (by simp)]
    simp only [if_pos]
    rw [ih (fun b hb => h b (by simp [hb]))]

theorem dropWhile_append_all {p : Char → Bool} {xs : List Char} (ys : List Char)
    (h : ∀ a ∈ xs, p a = true) :
    (xs ++ ys).dropWhile p = ys.dropWhile p := by
  induction xs with
  | nil => simp
  | cons a as ih =>
    simp only [List.cons_append, List.dropWhile_cons, h a (by simp)]
    simp only [if_pos]
    exact ih (fun b hb => h b (by simp [hb]))

theorem takeWhile_digit_none {ys : List Char} (h : headNotDigit ys = true) :
    ys.takeWhile isDigitC = [] := by
  cases ys with
  | nil => rfl
  | cons c l =>
    rw [headNotDigit] at h
    simp only [Bool.not_eq_true'] at h
    simp [List.takeWhile_cons, h]

theorem natChars_digits (n : Nat) : ∀ c ∈ natChars n, isDigitC c = true := by
  rw [natChars]
  split
  · intro c hc
    simp only [List.mem_singleton] at hc
    subst hc
    decide
  · rw [natCharsAux_eq_digits n n (le_refl n)]
    intro c hc
    simp only [List.mem_reverse, List.mem_map] at hc
    obtain ⟨d, hd, rfl⟩ := hc
    have hdlt : d < 10 := Nat.digits_lt_base (by norm_num) hd
    simp only [isDigitC, digitChar, Bool.and_eq_true, decide_eq_true_eq]
    rw [toNat_ofNat_small (48 + d) (by omega)]
    omega

theorem natChars_ne_nil (n : Nat) : natChars n ≠ [] := by
  rw [natChars]
  split
  · simp
  · rename_i h
    rw [natCharsAux_eq_digits n n (le_refl n)]
    simp only [ne_eq, List.reverse_eq_nil_iff, List.map_eq_nil_iff]
    exact Nat.digits_ne_nil_iff_ne_zero.mpr h

theorem digits_foldl (L : List Nat) (h : ∀ d ∈ L, d < 10) :
    ((L.map digitChar).reverse).foldl (fun a c => 10 * a + (c.toNat - 48)) 0 =
      Nat.ofDigits 10 L := by
  rw [List.foldl_reverse, List.foldr_map]
  induction L with
  | nil => rfl
  | cons d L2 ih =>
    rw [List.foldr_cons, ih (fun e he => h e (by simp [he])), Nat.ofDigits_cons]
    have hd : d < 10 := h d (by simp)
    rw [digitChar, toNat_ofNat_small (48 + d) (by omega)]
    have : Nat.ofDigits 10 L2 = (Nat.ofDigits 10 L2 : Nat) := rfl
    omega

theorem natChars_foldl (n : Nat) :
    (natChars n).foldl (fun a c => 10 * a + (c.toNat - 48)) 0 = n := by
  rw [natChars]
  split
  · rename_i h
    subst h
    decide
  · rw [natCharsAux_eq_digits n n (le_refl n),
      digits_foldl _ (fun d hd => Nat.digits_lt_base (by norm_num) hd),
      Nat.ofDigits_digits]

theorem parseDigits_natChars (n : Nat) (rest : List Char) (h : headNotDigit rest = true) :
    parseDigits (natChars n ++ rest) = some (n, rest) := by
  have htw : (natChars n ++ rest).takeWhile isDigitC = natChars n := by
    rw [takeWhile_append_all rest (natChars_digits n)]
    rw [takeWhile_digit_none h]
    simp
  have hdw : (natChars n ++ rest).dropWhile isDigitC = rest := by
    rw [dropWhile_append_all rest (natChars_digits n)]
    cases rest with
    | nil => rfl
    | cons c l =>
      rw [headNotDigit] at h
      simp only [Bool.not_eq_true'] at h
      simp [List.dropWhile_cons, h]
  rw [parseDigits, htw, hdw, if_neg (natChars_ne_nil n), natChars_foldl]

theorem hexDigVal_hexDigChar (d : Nat) (h : d < 16) : hexDigVal (hexDigChar d) = some d := by
  interval_cases d <;> decide

theorem hexDigVal_mod (m : Nat) : hexDigVal (hexDigChar (m % 16)) = some (m % 16) :=
  hexDigVal_hexDigChar (m % 16) (Nat.mod_lt m (by norm_num))

theorem strStep_escChar (a : Bool) (c : Char) (t : List Char) :
    strStep (escChar a c ++ t) = some (some c, t) := by
  rw [escChar]
  by_cases hc1 : c = '"'
  · rw [if_pos hc1]
    subst hc1
    simp only [List.cons_append, List.nil_append]
    rw [strStep, if_neg (by decide), if_pos rfl, escStep, if_neg (by decide)]
    have he : escShort '"' = some '"' := by decide
    rw [he]
  · rw [if_neg hc1]
    by_cases hc2 : c = '\\'
    · rw [if_pos hc2]
      subst hc2
      simp only [List.cons_append, List.nil_append]
      rw [strStep, if_neg (by decide), if_pos rfl, escStep, if_neg (by decide)]
      have he : escShort '\\' = some '\\' := by decide
      rw [he]
    · rw [if_neg hc2]
      by_cases hc3 : c = '\n'
      · rw [if_pos hc3]
        subst hc3
        simp only [List.cons_append, List.nil_append]
        rw [strStep, if_neg (by decide), if_pos rfl, escStep, if_neg (by decide)]
        have he : escShort 'n' = some '\n' := by decide
        rw [he]
      · rw [if_neg hc3]
        by_cases hc4 : c = '\t'
        · rw [if_pos hc4]
          subst hc4
          simp only [List.cons_append, List.nil_append]
          rw [strStep, if_neg (by decide), if_pos rfl, escStep, if_neg (by decide)]
          have he : escShort 't' = some '\t' := by decide
          rw [he]
        · rw [if_neg hc4]
          by_cases hc5 : c = '\r'
          · rw [if_pos hc5]
            subst hc5
            simp only [List.cons_append, List.nil_append]
            rw [strStep, if_neg (by decide), if_pos rfl, escStep, if_neg (by decide)]
            have he : escShort 'r' = some '\r' := by decide
            rw [he]
          · rw [if_neg hc5]
            by_cases hc6 : c.toNat = 8
            · rw [if_pos hc6]
              simp only [List.cons_append, List.nil_append]
              rw [strStep, if_neg (by decide), if_pos rfl, escStep, if_neg (by decide)]
              have he : escShort 'b' = some (Char.ofNat 8) := by decide
              rw [he]
              have hcc : Char.ofNat 8 = c := by
                apply char_eq_of_toNat_eq
                rw [toNat_ofNat_small 8 (by omega), hc6]
              rw [hcc]
            · rw [if_neg hc6]
              by_cases hc7 : c.toNat = 12
              · rw [if_pos hc7]
                simp only [List.cons_append, List.nil_append]
                rw [strStep, if_neg (by decide), if_pos rfl, escStep, if_neg (by decide)]
                have he : escShort 'f' = some (Char.ofNat 12) := by decide
                rw [he]
                have hcc : Char.ofNat 12 = c := by
                  apply char_eq_of_toNat_eq
                  rw [toNat_ofNat_small 12 (by omega), hc7]
                rw [hcc]
              · rw [if_neg hc7]
                by_cases hc8 : c.toNat < 0x20
                · rw [if_pos hc8, hex4]
                  simp only [List.cons_append, List.nil_append]
                  rw [strStep, if_neg (by decide), if_pos rfl, escStep, if_pos rfl, uStep]
                  rw [hexDigVal_mod, hexDigVal_mod, hexDigVal_mod, hexDigVal_mod]
                  dsimp only
                  have hval : ((c.toNat / 4096 % 16 * 16 + c.toNat / 256 % 16) * 16 +
                      c.toNat / 16 % 16) * 16 + c.toNat % 16 = c.toNat := by omega
                  rw [hval, if_neg (by omega), if_neg (by omega), Char.ofNat_toNat]
                · rw [if_neg hc8]
                  by_cases hc9 : (a && decide (0x7F ≤ c.toNat)) = true
                  · rw [if_pos hc9]
                    by_cases hA : c.toNat < 0x10000
                    · rw [if_pos hA, hex4]
                      simp only [List.cons_append, List.nil_append]
                      rw [strStep, if_neg (by decide), if_pos rfl, escStep, if_pos rfl, uStep]
                      rw [hexDigVal_mod, hexDigVal_mod, hexDigVal_mod, hexDigVal_mod]
                      dsimp only
                      have hval : ((c.toNat / 4096 % 16 * 16 + c.toNat / 256 % 16) * 16 +
                          c.toNat / 16 % 16) * 16 + c.toNat % 16 = c.toNat := by omega
                      have hns := char_valid_nat c
                      rw [hval, if_neg (by rcases hns with h | h <;> omega),
                        if_neg (by rcases hns with h | h <;> omega), Char.ofNat_toNat]
                    · rw [if_neg hA]
                      have hlt := char_toNat_lt c
                      rw [hex4, hex4]
                      simp only [List.cons_append, List.nil_append, List.append_assoc]
                      rw [strStep, if_neg (by decide), if_pos rfl, escStep, if_pos rfl, uStep]
                      rw [hexDigVal_mod, hexDigVal_mod, hexDigVal_mod, hexDigVal_mod]
                      dsimp only
                      have hvalhi : (((0xD800 + (c.toNat - 0x10000) / 1024) / 4096 % 16 * 16 +
                          (0xD800 + (c.toNat - 0x10000) / 1024) / 256 % 16) * 16 +
                          (0xD800 + (c.toNat - 0x10000) / 1024) / 16 % 16) * 16 +
                          (0xD800 + (c.toNat - 0x10000) / 1024) % 16 =
                          0xD800 + (c.toNat - 0x10000) / 1024 := by omega
                      rw [hvalhi, if_pos (by omega :
                        0xD800 ≤ 0xD800 + (c.toNat - 0x10000) / 1024 ∧
                          0xD800 + (c.toNat - 0x10000) / 1024 < 0xDC00)]
                      rw [pairStep, if_pos (⟨rfl, rfl⟩ : ('\\' : Char) = '\\' ∧ ('u' : Char) = 'u'),
                        lowStep]
                      rw [hexDigVal_mod, hexDigVal_mod, hexDigVal_mod, hexDigVal_mod]
                      dsimp only
                      have hvallo : (((0xDC00 + (c.toNat - 0x10000) % 1024) / 4096 % 16 * 16 +
                          (0xDC00 + (c.toNat - 0x10000) % 1024) / 256 % 16) * 16 +
                          (0xDC00 + (c.toNat - 0x10000) % 1024) / 16 % 16) * 16 +
                          (0xDC00 + (c.toNat - 0x10000) % 1024) % 16 =
                          0xDC00 + (c.toNat - 0x10000) % 1024 := by omega
                      rw [hvallo, if_pos (by omega :
                        0xDC00 ≤ 0xDC00 + (c.toNat - 0x10000) % 1024 ∧
                          0xDC00 + (c.toNat - 0x10000) % 1024 < 0xE000)]
                      have hcomb : 0x10000 +
                          (0xD800 + (c.toNat - 0x10000) / 1024 - 0xD800) * 1024 +
                          (0xDC00 + (c.toNat - 0x10000) % 1024 - 0xDC00) = c.toNat := by omega
                      rw [hcomb, Char.ofNat_toNat]
                  · rw [if_neg hc9]
                    simp only [List.cons_append, List.nil_append]
                    rw [strStep, if_neg hc1, if_neg hc2]

theorem escChar_ne_nil (a : Bool) (c : Char) : escChar a c ≠ [] := by
  rw [escChar]
  repeat' split
  all_goals simp

theorem escSeq_len (a : Bool) (s : List Char) : s.length ≤ (escSeq a s).length := by
  induction s with
  | nil => simp [escSeq]
  | cons c cs ih =>
    have : escSeq a (c :: cs) = escChar a c ++ escSeq a cs := by simp [escSeq]
    rw [this, List.length_append]
    have h1 : 1 ≤ (escChar a c).length := by
      cases h : escChar a c with
      | nil => exact absurd h (escChar_ne_nil a c)
      | cons b t => simp
    simp only [List.length_cons]
    omega

theorem parseStrLoop_esc (a : Bool) (s : List Char) :
    ∀ fuel rest, s.length < fuel →
      parseStrLoop fuel (escSeq a s ++ '"' :: rest) = some (s, rest) := by
  induction s with
  | nil =>
    intro fuel rest hf
    obtain ⟨f, rfl⟩ : ∃ f, fuel = f + 1 := by
      cases fuel with
      | zero => simp at hf
      | succ f => exact ⟨f, rfl⟩
    have : escSeq a [] ++ '"' :: rest = '"' :: rest := by simp [escSeq]
    rw [this, parseStrLoop, strStep, if_pos rfl]
  | cons c cs ih =>
    intro fuel rest hf
    obtain ⟨f, rfl⟩ : ∃ f, fuel = f + 1 := by
      cases fuel with
      | zero => simp at hf
      | succ f => exact ⟨f, rfl⟩
    have hsplit : escSeq a (c :: cs) ++ '"' :: rest =
        escChar a c ++ (escSeq a cs ++ '"' :: rest) := by simp [escSeq]
    rw [hsplit, parseStrLoop, strStep_escChar]
    dsimp only
    rw [ih f rest (by simpa using hf)]
    rfl

theorem parseStrBody_esc (a : Bool) (s : List Char) (rest : List Char) :
    parseStrBody (escSeq a s ++ '"' :: rest) = some (s, rest) := by
  rw [parseStrBody]
  apply parseStrLoop_esc
  have := escSeq_len a s
  simp only [List.length_append, List.length_cons]
  omega

theorem dumpStr_append (a : Bool) (s R : List Char) :
    dumpStr a s ++ R = '"' :: (escSeq a s ++ ('"' :: R)) := by
  rw [dumpStr]
  simp

theorem digitC_bounds {c : Char} (h : isDigitC c = true) : 48 ≤ c.toNat ∧ c.toNat ≤ 57 := by
  simp only [isDigitC, Bool.and_eq_true, decide_eq_true_eq] at h
  exact h

theorem digit_not_ws {c : Char} (h : isDigitC c = true) : isWsC c = false := by
  have hb := digitC_bounds h
  simp only [isWsC, Bool.or_eq_false_iff, decide_eq_false_iff_not]
  omega

theorem digit_ne {c : Char} (h : isDigitC c = true) (d : Char) (hd : isDigitC d = false) :
    c ≠ d := by
  intro he
  rw [he, hd] at h
  cases h

theorem natChars_head (n : Nat) : ∃ c t, natChars n = c :: t ∧ isDigitC c = true := by
  cases h : natChars n with
  | nil => exact absurd h (natChars_ne_nil n)
  | cons c t =>
    refine ⟨c, t, rfl, natChars_digits n c ?_⟩
    rw [h]
    simp

/-- Serialized values begin with a non-whitespace character distinct from
the list and object closers. -/
theorem dumpVal_head (a : Bool) (lvl : Nat) (v : Jval) :
    ∃ c t, dumpVal a lvl v = c :: t ∧ isWsC c = false ∧ c ≠ ']' ∧ c ≠ '}' := by
  cases v with
  | null => exact ⟨'n', _, by rw [dumpVal, litNull], by decide, by decide, by decide⟩
  | bool b =>
    cases b with
    | true => exact ⟨'t', _, by rw [dumpVal, litTrue], by decide, by decide, by decide⟩
    | false => exact ⟨'f', _, by rw [dumpVal, litFalse], by decide, by decide, by decide⟩
  | num n =>
    by_cases hn : n < 0
    · refine ⟨'-', natChars n.natAbs, ?_, by decide, by decide, by decide⟩
      rw [dumpVal, dumpInt, if_pos hn]
    · obtain ⟨c, t, hct, hcd⟩ := natChars_head n.toNat
      refine ⟨c, t, ?_, digit_not_ws hcd, digit_ne hcd ']' (by decide),
        digit_ne hcd '}' (by decide)⟩
      rw [dumpVal, dumpInt, if_neg hn, hct]
  | str s => exact ⟨'"', _, by rw [dumpVal, dumpStr], by decide, by decide, by decide⟩
  | arr xs =>
    cases xs with
    | nil => exact ⟨'[', _, by rw [dumpVal], by decide, by decide, by decide⟩
    | cons x xs2 => exact ⟨'[', _, by rw [dumpVal], by decide, by decide, by decide⟩
  | obj ms =>
    cases ms with
    | nil => exact ⟨'{', _, by rw [dumpVal], by decide, by decide, by decide⟩
    | cons k v2 ms2 => exact ⟨'{', _, by rw [dumpVal], by decide, by decide, by decide⟩

theorem headNotDigit_arrTail (a : Bool) (lvl : Nat) (xs : Jarr) (r : List Char) :
    headNotDigit (dumpArrTail a lvl xs ++ '\n' :: r) = true := by
  cases xs with
  | nil =>
    rw [dumpArrTail]
    simp only [List.nil_append]
    rw [headNotDigit]
    decide
  | cons x xs2 =>
    rw [dumpArrTail]
    simp only [List.cons_append]
    rw [headNotDigit]
    decide

theorem headNotDigit_objTail (a : Bool) (lvl : Nat) (ms : Jobj) (r : List Char) :
    headNotDigit (dumpObjTail a lvl ms ++ '\n' :: r) = true := by
  cases ms with
  | nil =>
    rw [dumpObjTail]
    simp only [List.nil_append]
    rw [headNotDigit]
    decide
  | cons k v ms2 =>
    rw [dumpObjTail]
    simp only [List.cons_append]
    rw [headNotDigit]
    decide

theorem sizeV_pos (v : Jval) : 1 ≤ sizeV v := by
  cases v <;> simp [sizeV]

mutual
theorem sizeV_le_dumpLen (a : Bool) (lvl : Nat) (v : Jval) :
    sizeV v ≤ (dumpVal a lvl v).length := by
  cases v with
  | null => rw [dumpVal, litNull, sizeV]; simp
  | bool b =>
    cases b with
    | true => rw [dumpVal, litTrue, sizeV]; simp
    | false => rw [dumpVal, litFalse, sizeV]; simp
  | num n =>
    rw [dumpVal, sizeV]
    rw [dumpInt]
    split
    · simp
    · have := natChars_ne_nil n.toNat
      have : 0 < (natChars n.toNat).length := List.length_pos.mpr this
      omega
  | str s =>
    rw [dumpVal, sizeV, dumpStr]
    simp
  | arr xs =>
    cases xs with
    | nil => rw [dumpVal, sizeV, sizeA]; simp
    | cons x xs2 =>
      rw [dumpVal, sizeV, sizeA]
      have h1 := sizeV_le_dumpLen a (lvl + 1) x
      have h2 := sizeA_le_dumpLen a (lvl + 1) xs2
      simp only [List.length_cons, List.length_append]
      omega
  | obj ms =>
    cases ms with
    | nil => rw [dumpVal, sizeV, sizeO]; simp
    | cons k v2 ms2 =>
      rw [dumpVal, sizeV, sizeO]
      have h1 := sizeV_le_dumpLen a (lvl + 1) v2
      have h2 := sizeO_le_dumpLen a (lvl + 1) ms2
      simp only [List.length_cons, List.length_append]
      omega
  termination_by structural v
theorem sizeA_le_dumpLen (a : Bool) (lvl : Nat) (xs : Jarr) :
    sizeA xs ≤ (dumpArrTail a lvl xs).length := by
  cases xs with
  | nil => rw [sizeA, dumpArrTail]; simp
  | cons x xs2 =>
    rw [sizeA, dumpArrTail]
    have h1 := sizeV_le_dumpLen a lvl x
    have h2 := sizeA_le_dumpLen a lvl xs2
    simp only [List.length_cons, List.length_append]
    omega
  termination_by structural xs
theorem sizeO_le_dumpLen (a : Bool) (lvl : Nat) (ms : Jobj) :
    sizeO ms ≤ (dumpObjTail a lvl ms).length := by
  cases ms with
  | nil => rw [sizeO, dumpObjTail]; simp
  | cons k v ms2 =>
    rw [sizeO, dumpObjTail]
    have h1 := sizeV_le_dumpLen a lvl v
    have h2 := sizeO_le_dumpLen a lvl ms2
    simp only [List.length_cons, List.length_append]
    omega
  termination_by structural ms
end

/-- The central round-trip invariant of the recursive-descent parser: a
serialized value (possibly preceded by insignificant whitespace) parses
back to itself, consuming exactly its rendering; similarly the printed
item tails of arrays and objects. -/
theorem parse_dump (a : Bool) : ∀ fuel : Nat,
    (∀ v lvl (ws rest : List Char), (∀ c ∈ ws, isWsC c = true) → sizeV v ≤ fuel →
      headNotDigit rest = true →
      parseVal fuel (ws ++ (dumpVal a lvl v ++ rest)) = some (v, rest)) ∧
    (∀ x xs lvl lvl2 (ws rest : List Char), (∀ c ∈ ws, isWsC c = true) →
      sizeV x + sizeA xs + 1 ≤ fuel →
      parseArrTail fuel (ws ++ (dumpVal a lvl x ++ (dumpArrTail a lvl xs ++
        ('\n' :: (ind lvl2 ++ (']' :: rest)))))) = some (Jarr.cons x xs, rest)) ∧
    (∀ k v ms lvl lvl2 (ws rest : List Char), (∀ c ∈ ws, isWsC c = true) →
      sizeV v + sizeO ms + 1 ≤ fuel →
      parseObjTail fuel (ws ++ (dumpStr a k ++ (':' :: ' ' :: (dumpVal a lvl v ++
        (dumpObjTail a lvl ms ++ ('\n' :: (ind lvl2 ++ ('}' :: rest)))))))) =
        some (Jobj.cons k v ms, rest)) := by
  intro fuel
  induction fuel with
  | zero =>
    refine ⟨?_, ?_, ?_⟩
    · intro v lvl ws rest hws hsz hnd
      have := sizeV_pos v
      omega
    · intro x xs lvl lvl2 ws rest hws hsz
      omega
    · intro k v ms lvl lvl2 ws rest hws hsz
      omega
  | succ f ih =>
    obtain ⟨ihV, ihA, ihO⟩ := ih
    refine ⟨?_, ?_, ?_⟩
    · intro v lvl ws rest hws hsz hnd
      rw [parseVal, skipWs_ws_append _ hws]
      cases v with
      | null =>
        rw [dumpVal, litNull]
        simp only [List.cons_append, List.nil_append]
        rw [skipWs_not _ (by decide)]
        dsimp only
        rw [if_pos rfl, kw3, if_pos ⟨rfl, rfl, rfl⟩]
      | bool b =>
        cases b with
        | true =>
          rw [dumpVal, litTrue]
          simp only [List.cons_append, List.nil_append]
          rw [skipWs_not _ (by decide)]
          dsimp only
          rw [if_neg (by decide), if_pos rfl, kw3, if_pos ⟨rfl, rfl, rfl⟩]
        | false =>
          rw [dumpVal, litFalse]
          simp only [List.cons_append, List.nil_append]
          rw [skipWs_not _ (by decide)]
          dsimp only
          rw [if_neg (by decide), if_neg (by decide), if_pos rfl, kw4,
            if_pos ⟨rfl, rfl, rfl, rfl⟩]
      | num n =>
        rw [dumpVal, dumpInt]
        by_cases hn : n < 0
        · rw [if_pos hn]
          simp only [List.cons_append]
          rw [skipWs_not _ (by decide)]
          dsimp only
          rw [if_neg (by decide), if_neg (by decide), if_neg (by decide), if_neg (by decide),
            if_pos rfl, parseDigits_natChars _ _ hnd]
          dsimp only
          have hni : -((n.natAbs : Int)) = n := by omega
          rw [hni]
        · rw [if_neg hn]
          obtain ⟨c, t, hct, hcd⟩ := natChars_head n.toNat
          rw [hct]
          simp only [List.cons_append]
          rw [skipWs_not _ (digit_not_ws hcd)]
          dsimp only
          rw [if_neg (digit_ne hcd 'n' (by decide)), if_neg (digit_ne hcd 't' (by decide)),
            if_neg (digit_ne hcd 'f' (by decide)), if_neg (digit_ne hcd '"' (by decide)),
            if_neg (digit_ne hcd '-' (by decide)), if_pos hcd, ← List.cons_append, ← hct,
            parseDigits_natChars _ _ hnd]
          dsimp only
          have hni : ((n.toNat : Int)) = n := by omega
          rw [hni]
      | str s =>
        rw [dumpVal, dumpStr_append, skipWs_not _ (by decide)]
        dsimp only
        rw [if_neg (by decide), if_neg (by decide), if_neg (by decide), if_pos rfl,
          parseStrBody_esc]
        rfl
      | arr xs =>
        cases xs with
        | nil =>
          rw [dumpVal]
          simp only [List.cons_append, List.nil_append]
          rw [skipWs_not _ (by decide)]
          dsimp only
          rw [if_neg (by decide), if_neg (by decide), if_neg (by decide), if_neg (by decide),
            if_neg (by decide), if_neg (by decide), if_pos rfl, skipWs_not _ (by decide)]
          dsimp only
          rw [if_pos rfl]
        | cons x xs2 =>
          rw [dumpVal]
          simp only [List.cons_append, List.nil_append, List.append_assoc]
          rw [skipWs_not _ (by decide)]
          dsimp only
          rw [if_neg (by decide), if_neg (by decide), if_neg (by decide), if_neg (by decide),
            if_neg (by decide), if_neg (by decide), if_pos rfl, skipWs_cons_ws _ (by decide),
            skipWs_ws_append _ (ind_ws (lvl + 1))]
          obtain ⟨c, t, hct, hcw, hcne, _⟩ := dumpVal_head a (lvl + 1) x
          rw [hct]
          simp only [List.cons_append]
          rw [skipWs_not _ hcw]
          dsimp only
          rw [if_neg hcne, ← List.cons_append, ← hct]
          have hf : sizeV x + sizeA xs2 + 1 ≤ f := by
            simp only [sizeV, sizeA] at hsz
            omega
          have harr := ihA x xs2 (lvl + 1) lvl [] rest (by simp) hf
          simp only [List.nil_append] at harr
          rw [harr]
          rfl
      | obj ms =>
        cases ms with
        | nil =>
          rw [dumpVal]
          simp only [List.cons_append, List.nil_append]
          rw [skipWs_not _ (by decide)]
          dsimp only
          rw [if_neg (by decide), if_neg (by decide), if_neg (by decide), if_neg (by decide),
            if_neg (by decide), if_neg (by decide), if_neg (by decide), if_pos rfl,
            skipWs_not _ (by decide)]
          dsimp only
          rw [if_pos rfl]
        | cons k v2 ms2 =>
          rw [dumpVal]
          simp only [List.cons_append, List.nil_append, List.append_assoc]
          rw [skipWs_not _ (by decide)]
          dsimp only
          rw [if_neg (by decide), if_neg (by decide), if_neg (by decide), if_neg (by decide),
            if_neg (by decide), if_neg (by decide), if_neg (by decide), if_pos rfl,
            skipWs_cons_ws _ (by decide), skipWs_ws_append _ (ind_ws (lvl + 1)),
            dumpStr_append, skipWs_not _ (by decide)]
          dsimp only
          rw [if_neg (by decide), ← dumpStr_append]
          have hf : sizeV v2 + sizeO ms2 + 1 ≤ f := by
            simp only [sizeV, sizeO] at hsz
            omega
          have hobj := ihO k v2 ms2 (lvl + 1) lvl [] rest (by simp) hf
          simp only [List.nil_append] at hobj
          rw [hobj]
          rfl
    · intro x xs lvl lvl2 ws rest hws hsz
      rw [parseArrTail]
      have hf : sizeV x ≤ f := by omega
      have hv := ihV x lvl ws (dumpArrTail a lvl xs ++ ('\n' :: (ind lvl2 ++ (']' :: rest))))
        hws hf (headNotDigit_arrTail a lvl xs _)
      rw [hv]
      dsimp only
      cases xs with
      | nil =>
        rw [dumpArrTail]
        simp only [List.nil_append]
        rw [skipWs_cons_ws _ (by decide), skipWs_ws_append _ (ind_ws lvl2),
          skipWs_not _ (by decide)]
        dsimp only
        rw [if_neg (by decide), if_pos rfl]
      | cons y ys =>
        rw [dumpArrTail]
        simp only [List.cons_append, List.append_assoc]
        rw [skipWs_not _ (by decide)]
        dsimp only
        rw [if_pos rfl]
        have hwsy : ∀ c ∈ ('\n' :: ind lvl), isWsC c = true := by
          intro c hc
          rcases List.mem_cons.mp hc with rfl | hc
          · decide
          · exact ind_ws lvl c hc
        have hfy : sizeV y + sizeA ys + 1 ≤ f := by
          simp only [sizeA] at hsz
          have := sizeV_pos x
          omega
        have harr := ihA y ys lvl lvl2 ('\n' :: ind lvl) rest hwsy hfy
        simp only [List.cons_append] at harr
        rw [harr]
        rfl
    · intro k v ms lvl lvl2 ws rest hws hsz
      rw [parseObjTail, skipWs_ws_append _ hws, dumpStr_append, skipWs_not _ (by decide)]
      dsimp only
      rw [if_pos rfl, parseStrBody_esc]
      dsimp only
      rw [skipWs_not _ (by decide)]
      dsimp only
      rw [if_pos rfl]
      have hf : sizeV v ≤ f := by omega
      have hv := ihV v lvl [' '] (dumpObjTail a lvl ms ++ ('\n' :: (ind lvl2 ++ ('}' :: rest))))
        (by intro c hc; simp only [List.mem_singleton] at hc; subst hc; decide) hf
        (headNotDigit_objTail a lvl ms _)
      simp only [List.cons_append, List.nil_append] at hv
      rw [hv]
      dsimp only
      cases ms with
      | nil =>
        rw [dumpObjTail]
        simp only [List.nil_append]
        rw [skipWs_cons_ws _ (by decide), skipWs_ws_append _ (ind_ws lvl2),
          skipWs_not _ (by decide)]
        dsimp only
        rw [if_neg (by decide), if_pos rfl]
      | cons k2 v2 ms2 =>
        rw [dumpObjTail]
        simp only [List.cons_append, List.append_assoc]
        rw [skipWs_not _ (by decide)]
        dsimp only
        rw [if_pos rfl]
        have hws2 : ∀ c ∈ ('\n' :: ind lvl), isWsC c = true := by
          intro c hc
          rcases List.mem_cons.mp hc with rfl | hc
          · decide
          · exact ind_ws lvl c hc
        have hf2 : sizeV v2 + sizeO ms2 + 1 ≤ f := by
          simp only [sizeO] at hsz
          have := sizeV_pos v
          omega
        have hobj := ihO k2 v2 ms2 lvl lvl2 ('\n' :: ind lvl) rest hws2 hf2
        simp only [List.cons_append] at hobj
        rw [hobj]
        rfl

/-- The JSON codec round-trip: parsing a serialization (in either
`ensure_ascii` mode) recovers the value. -/
theorem json_loads_dumps (a : Bool) (v : Jval) : json_loads (json_dumps a v) = some v := by
  rw [json_loads, json_dumps]
  have hsz : sizeV v ≤ (dumpVal a 0 v).length + 1 := by
    have := sizeV_le_dumpLen a 0 v
    omega
  have hm := (parse_dump a ((dumpVal a 0 v).length + 1)).1 v 0 [] [] (by simp) hsz (by rfl)
  simp only [List.nil_append, List.append_nil] at hm
  rw [hm]
  rfl

theorem chSplit_ne_nil (sep : Char) (l : List Char) : chSplit sep l ≠ [] := by
  cases l with
  | nil => simp [chSplit]
  | cons c t =>
    rw [chSplit]
    cases h : chSplit sep t with
    | nil => simp
    | cons h2 t2 =>
      dsimp only
      split <;> simp

theorem joinSlash_chSplit (l : List Char) : joinSlash (chSplit '/' l) = l := by
  induction l with
  | nil => rfl
  | cons c t ih =>
    rw [chSplit]
    cases h : chSplit '/' t with
    | nil => exact absurd h (chSplit_ne_nil '/' t)
    | cons h2 t2 =>
      rw [h] at ih
      dsimp only
      by_cases hc : c = '/'
      · subst hc
        rw [if_pos rfl, joinSlash, ← ih]
        · simp
        · simp
      · rw [if_neg hc]
        cases t2 with
        | nil =>
          rw [joinSlash] at ih ⊢
          rw [ih]
        | cons h3 t3 =>
          rw [joinSlash, ← ih]
          · rfl
          · simp

theorem splitSlash_ne_nil (s : String) : splitSlash s ≠ [] := by
  rw [splitSlash]
  simp only [ne_eq, List.map_eq_nil_iff]
  exact chSplit_ne_nil '/' s.data

theorem strLeC_total (xs ys : List Char) : strLeC xs ys = true ∨ strLeC ys xs = true := by
  induction xs generalizing ys with
  | nil => left; rfl
  | cons x xs2 ih =>
    cases ys with
    | nil => right; rfl
    | cons y ys2 =>
      by_cases hxy : x = y
      · subst hxy
        rw [strLeC, if_pos rfl, strLeC, if_pos rfl]
        exact ih ys2
      · rw [strLeC, if_neg hxy, strLeC, if_neg (fun h => hxy h.symm)]
        simp only [decide_eq_true_eq]
        have : x.toNat ≠ y.toNat := fun h => hxy (char_eq_of_toNat_eq h)
        omega

theorem strLeC_trans {xs ys zs : List Char} (h1 : strLeC xs ys = true)
    (h2 : strLeC ys zs = true) : strLeC xs zs = true := by
  induction xs generalizing ys zs with
  | nil => rfl
  | cons x xs2 ih =>
    cases ys with
    | nil => cases h1
    | cons y ys2 =>
      cases zs with
      | nil => cases h2
      | cons z zs2 =>
        rw [strLeC] at h1 h2 ⊢
        by_cases hxy : x = y
        · subst hxy
          rw [if_pos rfl] at h1
          by_cases hyz : x = z
          · subst hyz
            rw [if_pos rfl] at h2 ⊢
            exact ih h1 h2
          · rw [if_neg hyz] at h2 ⊢
            exact h2
        · rw [if_neg hxy] at h1
          simp only [decide_eq_true_eq] at h1
          by_cases hyz : y = z
          · subst hyz
            rw [if_neg hxy]
            simp only [decide_eq_true_eq]
            exact h1
          · rw [if_neg hyz] at h2
            simp only [decide_eq_true_eq] at h2
            have hxz : x.toNat ≠ z.toNat := by omega
            rw [if_neg (fun h => hxz (congrArg Char.toNat h))]
            simp only [decide_eq_true_eq]
            omega

theorem strLe_total (a b : String) : strLe a b = true ∨ strLe b a = true :=
  strLeC_total a.data b.data

theorem strLe_trans {a b c : String} (h1 : strLe a b = true) (h2 : strLe b c = true) :
    strLe a c = true := strLeC_trans h1 h2

theorem mem_insertDesc {a x : String} {l : List String} :
    a ∈ insertDesc x l ↔ a = x ∨ a ∈ l := by
  induction l with
  | nil => simp [insertDesc]
  | cons y ys ih =>
    rw [insertDesc]
    split
    · simp
    · simp only [List.mem_cons, ih]
      tauto

theorem mem_sortDesc {a : String} {l : List String} : a ∈ sortDesc l ↔ a ∈ l := by
  induction l with
  | nil => simp [sortDesc]
  | cons x xs ih =>
    rw [sortDesc, List.foldr_cons]
    rw [show List.foldr insertDesc [] xs = sortDesc xs from rfl]
    rw [mem_insertDesc, ih]
    simp

theorem insertDesc_sorted {x : String} {l : List String}
    (h : List.Pairwise (fun a b => strLe b a = true) l) :
    List.Pairwise (fun a b => strLe b a = true) (insertDesc x l) := by
  induction l with
  | nil => simp [insertDesc]
  | cons y ys ih =>
    rw [insertDesc]
    rcases List.pairwise_cons.mp h with ⟨hy, hys⟩
    split
    · rename_i hle
      refine List.pairwise_cons.mpr ⟨?_, h⟩
      intro b hb
      rcases List.mem_cons.mp hb with rfl | hb
      · exact hle
      · exact strLe_trans (hy b hb) hle
    · rename_i hnle
      have hxy : strLe x y = true := by
        rcases strLe_total y x with h2 | h2
        · exact absurd h2 hnle
        · exact h2
      refine List.pairwise_cons.mpr ⟨?_, ih hys⟩
      intro b hb
      rcases mem_insertDesc.mp hb with rfl | hb
      · exact hxy
      · exact hy b hb

theorem sortDesc_sorted (l : List String) :
    List.Pairwise (fun a b => strLe b a = true) (sortDesc l) := by
  induction l with
  | nil => simp [sortDesc]
  | cons x xs ih => exact insertDesc_sorted ih

/-! ## Supporting lemmas for the claims -/
theorem lookupF_setF_self (fs : List (String × List Nat)) (p : String) (c : List Nat) :
    lookupF (setF fs p c) p = some c := by
  induction fs with
  | nil => rw [setF, lookupF, if_pos rfl]
  | cons e t ih =>
    obtain ⟨q, d⟩ := e
    rw [setF]
    by_cases h : q = p
    · rw [if_pos h, lookupF, if_pos rfl]
    · rw [if_neg h, lookupF, if_neg h, ih]

theorem lookupF_setF_other (fs : List (String × List Nat)) (p q : String) (c : List Nat)
    (h : q ≠ p) : lookupF (setF fs p c) q = lookupF fs q := by
  induction fs with
  | nil => simp [setF, lookupF, Ne.symm h]
  | cons e t ih =>
    obtain ⟨r, d⟩ := e
    rw [setF]
    by_cases hr : r = p
    · subst hr
      rw [if_pos rfl, lookupF, lookupF, if_neg (fun he => h he.symm),
        if_neg (fun he => h he.symm)]
    · rw [if_neg hr, lookupF, lookupF]
      by_cases hq : r = q
      · rw [if_pos hq, if_pos hq]
      · rw [if_neg hq, if_neg hq, ih]

theorem hasStr_filter_ne (l : List String) (s : String) :
    hasStr (l.filter (fun q => decide (q ≠ s))) s = false := by
  induction l with
  | nil => rfl
  | cons a t ih =>
    rw [List.filter]
    by_cases h : a = s
    · subst h
      rw [decide_eq_false (by simp)]
      exact ih
    · rw [decide_eq_true (by simp [h]), hasStr, List.any_cons, decide_eq_false h]
      rw [hasStr] at ih
      rw [ih, Bool.or_false]

theorem hasStr_append_right {d : String} {l2 : List String} (l1 : List String) (h : d ∈ l2) :
    hasStr (l1 ++ l2) d = true := by
  rw [hasStr, List.any_append]
  have h2 : l2.any (fun x => decide (x = d)) = true :=
    List.any_eq_true.mpr ⟨d, h, by simp⟩
  rw [h2, Bool.or_true]

theorem alookup_assocSet_self (m : List (String × String)) (k v : String) :
    alookup (assocSet m k v) k = some v := by
  induction m with
  | nil => rw [assocSet, alookup, if_pos rfl]
  | cons e t ih =>
    obtain ⟨k2, v2⟩ := e
    rw [assocSet]
    by_cases h : k2 = k
    · rw [if_pos h, alookup, if_pos rfl]
    · rw [if_neg h, alookup, if_neg h, ih]

theorem alookup_assocSet_other (m : List (String × String)) (k k2 v : String)
    (h : k2 ≠ k) : alookup (assocSet m k v) k2 = alookup m k2 := by
  induction m with
  | nil => simp [assocSet, alookup, Ne.symm h]
  | cons e t ih =>
    obtain ⟨r, w⟩ := e
    rw [assocSet]
    by_cases hr : r = k
    · subst hr
      rw [if_pos rfl, alookup, alookup, if_neg (fun he => h he.symm),
        if_neg (fun he => h he.symm)]
    · rw [if_neg hr, alookup, alookup]
      by_cases hq : r = k2
      · rw [if_pos hq, if_pos hq]
      · rw [if_neg hq, if_neg hq, ih]

namespace GoogleDriveStorage

theorem resolveFileId_cache_hit (st : RState) (p fid : String)
    (h : alookup st.fileCache p = some fid) :
    resolveFileId st p = (some fid, st) := by
  rw [resolveFileId, h]

theorem download_hit (st : RState) (fid : String) (f : RFile)
    (h : st.drive.files.find? (fun g => decide (g.id = fid)) = some f) :
    downloadContent st fid =
      (match utf8Decode f.content with
       | some s => .ok s
       | none => .error "UnicodeDecodeError") := by
  rw [downloadContent, h]

theorem find_map_update (files : List RFile) (fid : String) (c : List Nat) (f0 : RFile)
    (h : files.find? (fun f => decide (f.id = fid)) = some f0) :
    (files.map (fun f => if f.id = fid then { f with content := c } else f)).find?
      (fun f => decide (f.id = fid)) = some { f0 with content := c } := by
  induction files with
  | nil => cases h
  | cons a t ih =>
    rw [List.map_cons]
    by_cases ha : a.id = fid
    · rw [List.find?_cons_of_pos _ (by simp [ha])] at h
      injection h with h1
      subst h1
      rw [if_pos ha]
      exact List.find?_cons_of_pos _ (by simp [ha])
    · rw [List.find?_cons_of_neg _ (by simp [ha])] at h
      rw [if_neg ha, List.find?_cons_of_neg _ (by simp [ha])]
      exact ih h

theorem resolveFileId_some_cache (st : RState) (p fid : String) (st1 : RState)
    (h : resolveFileId st p = (some fid, st1)) :
    alookup st1.fileCache p = some fid := by
  rw [resolveFileId] at h
  cases hc : alookup st.fileCache p with
  | some f0 =>
    rw [hc] at h
    simp only [Prod.mk.injEq, Option.some.injEq] at h
    obtain ⟨h1, h2⟩ := h
    subst h1
    subst h2
    exact hc
  | none =>
    rw [hc] at h
    dsimp only at h
    cases hf : resolveFolderId st (splitParent p).1 with
    | mk res stA =>
      rw [hf] at h
      cases res with
      | error e => simp at h
      | ok parentId =>
        dsimp only at h
        cases hq : queryFilesByName stA.drive parentId (splitParent p).2 with
        | nil =>
          rw [hq] at h
          simp at h
        | cons f t =>
          rw [hq] at h
          simp only [Prod.mk.injEq, Option.some.injEq] at h
          obtain ⟨h1, h2⟩ := h
          subst h1
          rw [← h2]
          exact alookup_assocSet_self _ _ _

/-- After a successful upsert, the path resolves from the cache to the
returned id without touching the state, and downloading that id gives
back exactly the uploaded content. -/
theorem upload_ok_read (st : RState) (p : String) (c : List Char) (fid : String) (st1 : RState)
    (h : uploadContent st p c = (.ok fid, st1)) :
    resolveFileId st1 p = (some fid, st1) ∧
    downloadContent st1 fid = .ok c := by
  rw [uploadContent] at h
  split at h
  · rename_i fid0 stA heq
    split at h
    · simp at h
    · rename_i f0 hfind
      simp only [Prod.mk.injEq, Except.ok.injEq] at h
      obtain ⟨h1, h2⟩ := h
      subst h1
      subst h2
      have hcache : alookup stA.fileCache p = some fid0 :=
        resolveFileId_some_cache st p fid0 stA heq
      refine ⟨resolveFileId_cache_hit _ p fid0 hcache, ?_⟩
      have hfind2 := find_map_update stA.drive.files fid0 (utf8Encode c) f0 hfind
      rw [download_hit _ fid0 _ hfind2]
      dsimp only
      rw [utf8Decode_encode]
  · rename_i stA heq
    split at h
    · simp at h
    · rename_i parentId stB hfo
      simp only [Prod.mk.injEq, Except.ok.injEq] at h
      obtain ⟨h1, h2⟩ := h
      subst h1
      subst h2
      constructor
      · exact resolveFileId_cache_hit _ p _ (alookup_assocSet_self _ _ _)
      · rw [download_hit _ _ _ (List.find?_cons_of_pos _ (by simp))]
        dsimp only
        rw [utf8Decode_encode]

end GoogleDriveStorage

/-! ## Claims -/
/-- C1: for every record `r` and name `n`, a successful `save_json` of
`(n, r)` followed by `load_json n` on the same backend returns a value
equal to `r`, on both the local and the remote backend. -/
theorem claim_C1 :
    (∀ (st : LFS) (n : String) (r : Jval) (st2 : LFS),
        LocalStorage.save_json st n r = .ok st2 →
        LocalStorage.load_json st2 n = r) ∧
    (∀ (st : RState) (n : String) (r : Jval) (st2 : RState),
        GoogleDriveStorage.save_json st n r = (.ok (), st2) →
        (GoogleDriveStorage.load_json st2 n).1 = .ok r) := by
  constructor
  · intro st n r st2 h
    simp only [LocalStorage.save_json, mkdirParents] at h
    split at h
    · simp at h
    · simp only [Except.ok.injEq] at h
      subst h
      rw [LocalStorage.load_json]
      dsimp only
      rw [lookupF_setF_self]
      dsimp only
      rw [hasStr_filter_ne, if_neg (by decide), utf8Decode_encode]
      dsimp only
      rw [json_loads_dumps]
  · intro st n r st2 h
    rw [GoogleDriveStorage.save_json] at h
    split at h
    · simp at h
    · rename_i fid stA heq
      simp only [Prod.mk.injEq] at h
      replace h := h.2
      subst h
      obtain ⟨hres, hdl⟩ := GoogleDriveStorage.upload_ok_read st _ _ fid stA heq
      rw [GoogleDriveStorage.load_json, hres]
      dsimp only
      rw [hdl]
      dsimp only
      rw [json_loads_dumps]

/-- C1 witness: the spec scenario
`saveRecord("tasks.json", \x7b"tasks":[\x7b"id":"TASK-1"\x7d]\x7d)` then
`loadRecord("tasks.json")`, on both backends. -/
theorem claim_C1_witness :
    LocalStorage.load_json c1LSaved "tasks.json" = c1R ∧
    (GoogleDriveStorage.load_json c1RSaved "tasks.json").1 = .ok c1R :=
  ⟨claim_C1.1 c1L "tasks.json" c1R c1LSaved (by decide),
   claim_C1.2 c1RSt "tasks.json" c1R c1RSaved (by decide)⟩

/-- C2 (amended): local `save_json` is atomic whenever the temporary
path differs from the destination (`with_suffix(".tmp")` changes the
name): every state an interruption can leave behind holds either the
full prior bytes or the full new serialization at the destination, never
a partial mixture. -/
theorem claim_C2 (st : LFS) (n : String) (r : Jval) (h : tempName n ≠ n) :
    ∀ s ∈ LocalStorage.saveJsonStates st n r,
      lfsRead s n = lfsRead st n ∨
      lfsRead s n = some (utf8Encode (json_dumps false r)) := by
  intro s hs
  simp only [LocalStorage.saveJsonStates] at hs
  rw [List.mem_append, List.mem_cons] at hs
  rcases hs with (h1 | h2) | h3
  · subst h1
    left
    rfl
  · rw [List.mem_map] at h2
    obtain ⟨k, hk1, hk2⟩ := h2
    subst hk2
    left
    simp only [lfsRead]
    rw [lookupF_setF_other _ _ _ _ (fun he => h he.symm)]
    rfl
  · rw [List.mem_singleton] at h3
    subst h3
    right
    simp only [lfsRead]
    exact lookupF_setF_self _ _ _

/-- C2 witness: the first mid-write state of saving to `"tasks.json"`
over prior content still reads the prior bytes. -/
theorem claim_C2_witness :
    lfsRead ((LocalStorage.saveJsonStates c2St "tasks.json" c2R).getD 1 c2St) "tasks.json" =
      lfsRead c2St "tasks.json" ∨
    lfsRead ((LocalStorage.saveJsonStates c2St "tasks.json" c2R).getD 1 c2St) "tasks.json" =
      some (utf8Encode (json_dumps false c2R)) :=
  claim_C2 c2St "tasks.json" c2R (by decide)
    ((LocalStorage.saveJsonStates c2St "tasks.json" c2R).getD 1 c2St) (by decide)

/-- C2 counterexample: for a destination named `"x.tmp"` the temporary
path coincides with the destination, so an interrupted save exposes a
partially written file. -/
theorem claim_C2_counterexample :
    ¬ (∀ s ∈ LocalStorage.saveJsonStates c2BadSt "x.tmp" c2BadR,
        lfsRead s "x.tmp" = lfsRead c2BadSt "x.tmp" ∨
        lfsRead s "x.tmp" = some (utf8Encode (json_dumps false c2BadR))) := by
  decide

/-- C3 (amended): `load_json` returns an empty mapping on the local
backend for an absent, unreadable (permission or decode failure) or
malformed record; the remote backend returns an empty mapping only for
an unresolved path — its parse and decode failures propagate. -/
theorem claim_C3 :
    (∀ (st : LFS) (n : String), lookupF st.files n = none →
        LocalStorage.load_json st n = jempty) ∧
    (∀ (st : LFS) (n : String), hasStr st.locked n = true →
        LocalStorage.load_json st n = jempty) ∧
    (∀ (st : LFS) (n : String) (bytes : List Nat), lookupF st.files n = some bytes →
        utf8Decode bytes = none → LocalStorage.load_json st n = jempty) ∧
    (∀ (st : LFS) (n : String) (bytes : List Nat) (s : List Char),
        lookupF st.files n = some bytes → utf8Decode bytes = some s →
        json_loads s = none → LocalStorage.load_json st n = jempty) ∧
    (∀ (st : RState) (n : String) (st1 : RState),
        GoogleDriveStorage.resolveFileId st ("mcp-data/" ++ n) = (none, st1) →
        GoogleDriveStorage.load_json st n = (.ok jempty, st1)) := by
  refine ⟨?_, ?_, ?_, ?_, ?_⟩
  · intro st n h
    rw [LocalStorage.load_json, h]
  · intro st n h
    cases hl : lookupF st.files n with
    | none => rw [LocalStorage.load_json, hl]
    | some bytes =>
      rw [LocalStorage.load_json, hl]
      dsimp only
      rw [h, if_pos rfl]
  · intro st n bytes h hd
    rw [LocalStorage.load_json, h]
    dsimp only
    cases hlk : hasStr st.locked n with
    | true => rw [if_pos rfl]
    | false =>
      rw [if_neg (by decide), hd]
  · intro st n bytes s h hd hj
    rw [LocalStorage.load_json, h]
    dsimp only
    cases hlk : hasStr st.locked n with
    | true => rw [if_pos rfl]
    | false =>
      rw [if_neg (by decide), hd]
      dsimp only
      rw [hj]
  · intro st n st1 h
    rw [GoogleDriveStorage.load_json, h]

/-- C3 witness: absent, permission-locked, undecodable and unparsable
records on the local backend, and an unresolved path on the remote
backend, all yield an empty mapping. -/
theorem claim_C3_witness :
    LocalStorage.load_json c3Abs "a.json" = jempty ∧
    LocalStorage.load_json c3Lock "a.json" = jempty ∧
    LocalStorage.load_json c3Mal "b.json" = jempty ∧
    LocalStorage.load_json c3Mal "a.json" = jempty ∧
    GoogleDriveStorage.load_json c3R "a.json" = (.ok jempty, c3R) :=
  ⟨claim_C3.1 c3Abs "a.json" (by decide),
   claim_C3.2.1 c3Lock "a.json" (by decide),
   claim_C3.2.2.1 c3Mal "b.json" [255] (by decide) (by decide),
   claim_C3.2.2.2.1 c3Mal "a.json" [104, 105] "hi".data (by decide) (by decide) (by decide),
   claim_C3.2.2.2.2 c3R "a.json" c3R (by decide)⟩

/-- C3 counterexample: a malformed record on the remote backend raises
`json.JSONDecodeError` out of `load_json` instead of returning an empty
mapping. -/
theorem claim_C3_counterexample :
    (GoogleDriveStorage.load_json c3Bad "a.json").1 = .error "JSONDecodeError" := by
  decide

theorem dropLast_getLastD (l : List (List Char)) (h : l ≠ []) :
    l.dropLast ++ [l.getLastD []] = l := by
  induction l with
  | nil => exact absurd rfl h
  | cons x t ih =>
    cases t with
    | nil => rfl
    | cons y t2 =>
      have h2 : y :: t2 ≠ [] := by simp
      rw [show (x :: y :: t2).dropLast = x :: (y :: t2).dropLast from rfl]
      rw [show (x :: y :: t2).getLastD [] = (y :: t2).getLastD [] from ?_]
      · rw [List.cons_append, ih h2]
      · simp [List.getLastD_cons]

theorem mapLast_eq (f : List Char → List Char) (l : List (List Char)) (h : l ≠ []) :
    mapLast f l = l.dropLast ++ [f (l.getLastD [])] := by
  induction l with
  | nil => exact absurd rfl h
  | cons x t ih =>
    cases t with
    | nil => rfl
    | cons y t2 =>
      have h2 : y :: t2 ≠ [] := by simp
      have hm : mapLast f (x :: y :: t2) = x :: mapLast f (y :: t2) := by
        rw [mapLast]
        simp
      rw [hm, ih h2]
      rw [show (x :: y :: t2).dropLast = x :: (y :: t2).dropLast from rfl]
      rw [show (x :: y :: t2).getLastD [] = (y :: t2).getLastD [] from ?_]
      · rw [List.cons_append]
      · simp [List.getLastD_cons]

theorem stemChars_tmp (pre : List Char) (h : pre ≠ []) :
    stemChars (pre ++ ".tmp".data) = pre := by
  have hdata : ".tmp".data = ['.', 't', 'm', 'p'] := rfl
  rw [hdata]
  have hext : (pre ++ ['.', 't', 'm', 'p']).reverse.takeWhile (fun c => c ≠ '.') =
      ['p', 'm', 't'] := by
    rw [List.reverse_append]
    show List.takeWhile _ ('p' :: 'm' :: 't' :: '.' :: pre.reverse) = _
    rw [List.takeWhile_cons_of_pos (by decide), List.takeWhile_cons_of_pos (by decide),
      List.takeWhile_cons_of_pos (by decide), List.takeWhile_cons_of_neg (by decide)]
  have hl : (pre ++ ['.', 't', 'm', 'p']).length = pre.length + 4 := by
    simp [List.length_append]
  have h3 : (['p', 'm', 't'] : List Char).length = 3 := rfl
  have hne : pre.length ≠ 0 := fun h0 => h (List.eq_nil_of_length_eq_zero h0)
  simp only [stemChars, hext, hl, h3]
  rw [if_neg (by omega), if_neg (by omega), if_neg (by omega)]
  have h4 : pre.length + 4 - 3 - 1 = pre.length := by omega
  rw [h4]
  exact List.take_left pre _

theorem compTemp_tmp (pre : List Char) (h : pre ≠ []) :
    compTemp (pre ++ ".tmp".data) = pre ++ ".tmp".data := by
  rw [compTemp, stemChars_tmp pre h]

/-- C10 (amended): `save_json` derives its temporary path with
`with_suffix(".tmp")` (so `"tasks.json"` uses `"tasks.tmp"`); every
record name whose final component properly ends in `".tmp"` keeps its own
path as the temporary path (written in place, the rename a no-op), and
any two record names in the same directory with equal stems share the
same temporary path.  (The bare final component `".tmp"` is the one
exception: `pathlib` treats its dot as a hidden-file prefix, not a
suffix, and appends, giving `".tmp.tmp"`.) -/
theorem claim_C10 :
    tempName "tasks.json" = "tasks.tmp" ∧
    (∀ n : String, ".tmp".data.isSuffixOf (lastComp n) = true →
      lastComp n ≠ ".tmp".data → tempName n = n) ∧
    (∀ n1 n2 : String, (chSplit '/' n1.data).dropLast = (chSplit '/' n2.data).dropLast →
      stemChars (lastComp n1) = stemChars (lastComp n2) →
      tempName n1 = tempName n2) := by
  refine ⟨by decide, ?_, ?_⟩
  · intro n hsuf hne
    rw [List.isSuffixOf_iff_suffix] at hsuf
    obtain ⟨pre, hpre⟩ := hsuf
    have hpre_ne : pre ≠ [] := by
      intro h0
      subst h0
      rw [List.nil_append] at hpre
      exact hne hpre.symm
    rw [tempName, mapLast_eq compTemp _ (chSplit_ne_nil '/' n.data)]
    rw [show (chSplit '/' n.data).getLastD [] = lastComp n from rfl]
    rw [← hpre, compTemp_tmp pre hpre_ne, hpre]
    rw [show lastComp n = (chSplit '/' n.data).getLastD [] from rfl]
    rw [dropLast_getLastD _ (chSplit_ne_nil '/' n.data), joinSlash_chSplit]
  · intro n1 n2 hdrop hstem
    rw [tempName, tempName, mapLast_eq compTemp _ (chSplit_ne_nil '/' n1.data),
      mapLast_eq compTemp _ (chSplit_ne_nil '/' n2.data), hdrop]
    have hc : compTemp ((chSplit '/' n1.data).getLastD []) =
        compTemp ((chSplit '/' n2.data).getLastD []) := by
      rw [compTemp, compTemp]
      exact congrArg (· ++ ".tmp".data) hstem
    rw [hc]

/-- C10 witness: a name properly ending in `".tmp"` is its own temporary
path, and two same-directory names differing only in their final suffix
share one temporary path. -/
theorem claim_C10_witness :
    tempName "sub/notes.tmp" = "sub/notes.tmp" ∧
    tempName "a/one.json" = tempName "a/one.md" :=
  ⟨claim_C10.2.1 "sub/notes.tmp" (by decide) (by decide),
   claim_C10.2.2 "a/one.json" "a/one.md" (by decide) (by decide)⟩

/-- C10 counterexample: the record name `".tmp"` ends in `".tmp"` yet its
temporary path is `".tmp.tmp"`, not itself, refuting the claim as written
for every name ending in `".tmp"`. -/
theorem claim_C10_counterexample :
    ".tmp".data.isSuffixOf (lastComp ".tmp") = true ∧ tempName ".tmp" ≠ ".tmp" := by
  decide

/-- C7 (amended): `read_text` returns none for an absent path on both
backends; on a UTF-8 decode failure the local backend retries once with
`latin-1` (which always succeeds, so it never gives up with none as the
spec describes), while the remote backend has no fallback and lets the
decode error propagate. -/
theorem claim_C7 :
    (∀ (st : LFS) (p : String), lookupF st.files p = none →
        LocalStorage.read_text st p = none) ∧
    (∀ (st : LFS) (p : String) (bytes : List Nat), lookupF st.files p = some bytes →
        hasStr st.locked p = false → utf8Decode bytes = none →
        LocalStorage.read_text st p = some (latin1Decode bytes)) ∧
    (∀ (st : RState) (p : String) (st1 : RState),
        GoogleDriveStorage.resolveFileId st p = (none, st1) →
        GoogleDriveStorage.read_text st p = (.ok none, st1)) := by
  refine ⟨?_, ?_, ?_⟩
  · intro st p h
    rw [LocalStorage.read_text, h]
  · intro st p bytes h hlk hd
    rw [LocalStorage.read_text, h]
    dsimp only
    rw [hlk, if_neg (by decide), hd]
  · intro st p st1 h
    rw [GoogleDriveStorage.read_text, h]

/-- C7 witness: an absent path reads as none, a non-UTF-8 local file
falls back to `latin-1`, and an unresolved remote path reads as none. -/
theorem claim_C7_witness :
    LocalStorage.read_text c7Abs "a.txt" = none ∧
    LocalStorage.read_text c7Fall "a.txt" = some (latin1Decode [104, 255, 105]) ∧
    GoogleDriveStorage.read_text c7R "a.txt" = (.ok none, c7R) :=
  ⟨claim_C7.1 c7Abs "a.txt" (by decide),
   claim_C7.2.1 c7Fall "a.txt" [104, 255, 105] (by decide) (by decide) (by decide),
   claim_C7.2.2 c7R "a.txt" c7R (by decide)⟩

/-- C7 counterexample: a remote file whose bytes are not valid UTF-8
raises `UnicodeDecodeError` out of `read_text` — no second, permissive
decode attempt exists on that backend. -/
theorem claim_C7_counterexample :
    (GoogleDriveStorage.read_text c7Bad "a.txt").1 = .error "UnicodeDecodeError" := by
  decide

namespace GoogleDriveStorage

theorem resolveFolderIdQ_drive (st : RState) (fp : String) :
    ((resolveFolderIdQ st fp).2.1).drive = st.drive := by
  rw [resolveFolderIdQ]
  split
  · rfl
  · split
    · rfl
    · dsimp only

theorem resolveFolderId_drive (st : RState) (fp : String) :
    ((resolveFolderId st fp).2).drive = st.drive := by
  cases hq : resolveFolderIdQ st fp with
  | mk res rest =>
    obtain ⟨st2, qs⟩ := rest
    have h := resolveFolderIdQ_drive st fp
    rw [hq] at h
    rw [resolveFolderId, hq]
    exact h

theorem resolveFileId_drive (st : RState) (p : String) :
    ((resolveFileId st p).2).drive = st.drive := by
  rw [resolveFileId]
  split
  · rfl
  · split
    · rename_i st2 e heq
      have h := resolveFolderId_drive st (splitParent p).1
      rw [heq] at h
      exact h
    · rename_i st2 parentId heq
      have h := resolveFolderId_drive st (splitParent p).1
      rw [heq] at h
      split
      · exact h
      · exact h

theorem uploadContent_folders (st : RState) (p : String) (c : List Char) :
    ((uploadContent st p c).2).drive.folders = st.drive.folders := by
  rw [uploadContent]
  split
  · rename_i fid stA heq
    have hA : stA.drive = st.drive := by
      have h := resolveFileId_drive st p
      rw [heq] at h
      exact h
    split
    · dsimp only
      rw [hA]
    · dsimp only
      rw [hA]
  · rename_i stA heq
    have hA : stA.drive = st.drive := by
      have h := resolveFileId_drive st p
      rw [heq] at h
      exact h
    split
    · rename_i e stB hfo
      have hB : stB.drive = stA.drive := by
        have h := resolveFolderId_drive stA (splitParent p).1
        rw [hfo] at h
        exact h
      dsimp only
      rw [hB, hA]
    · rename_i parentId stB hfo
      have hB : stB.drive = stA.drive := by
        have h := resolveFolderId_drive stA (splitParent p).1
        rw [hfo] at h
        exact h
      dsimp only
      rw [hB, hA]

end GoogleDriveStorage

/-- C4 (amended): local `write_text` creates every missing parent
directory and stores the content; remote `write_text` never creates any
folder — the drive folder list is unchanged by every call, and a write
into a missing folder fails. -/
theorem claim_C4 :
    (∀ (st : LFS) (p : String) (c : List Char), hasStr st.locked p = false →
      ∃ st2, LocalStorage.write_text st p c = .ok st2 ∧
        lookupF st2.files p = some (utf8Encode c) ∧
        ∀ d ∈ parentsOf p, hasStr st2.dirs d = true) ∧
    (∀ (st : RState) (p : String) (c : List Char),
      ((GoogleDriveStorage.write_text st p c).2).drive.folders = st.drive.folders) := by
  constructor
  · intro st p c h
    refine ⟨{ mkdirParents st p with
        files := setF (mkdirParents st p).files p (utf8Encode c) }, ?_, ?_, ?_⟩
    · simp only [LocalStorage.write_text, mkdirParents]
      rw [h, if_neg (by decide)]
    · exact lookupF_setF_self _ _ _
    · intro d hd
      exact hasStr_append_right st.dirs hd
  · intro st p c
    rw [GoogleDriveStorage.write_text]
    cases hu : GoogleDriveStorage.uploadContent st p c with
    | mk res st1 =>
      have h := GoogleDriveStorage.uploadContent_folders st p c
      rw [hu] at h
      cases res with
      | error e => exact h
      | ok fid => exact h

/-- C4 witness: a local write under two missing parent directories
creates both and stores the content. -/
theorem claim_C4_witness :
    ∃ st2, LocalStorage.write_text ⟨[], [], []⟩ "a/b/c.txt" "hi".data = .ok st2 ∧
      lookupF st2.files "a/b/c.txt" = some (utf8Encode "hi".data) ∧
      ∀ d ∈ parentsOf "a/b/c.txt", hasStr st2.dirs d = true :=
  claim_C4.1 ⟨[], [], []⟩ "a/b/c.txt" "hi".data (by decide)

/-- C4 counterexample: a remote write into a missing parent folder fails
with folder-not-found and creates nothing, refuting the claim that both
backends create missing parent structure. -/
theorem claim_C4_counterexample :
    (GoogleDriveStorage.write_text c4R "a/b.txt" "hi".data).1 =
      .error "Folder not found: a (missing: a)" ∧
    ((GoogleDriveStorage.write_text c4R "a/b.txt" "hi".data).2).drive = ⟨[], [], 0⟩ := by
  decide

/-- C5: evaluation of the `parts.index(part)` defect.  In the drive there
is a folder `"a"` under the root and nothing inside it, so by the claim
resolving `"a/a"` must fail with folder-not-found naming the second
`"a"` after querying both levels.  Instead `_resolve_folder_id` computes
the second iteration's `current_path` from the *first* occurrence of the
segment string, hits the cache entry seeded by the first iteration, and
returns success with the first folder's id after a single listing
query. -/
theorem claim_C5 :
    GoogleDriveStorage.resolveFolderIdQ c5St "a/a" =
      (.ok "idA", { c5St with folderCache := [("a", "idA")] }, [("root", "a")]) := by
  decide

theorem isSuffixOf_append_left (l t s : List Char) (h : l.isSuffixOf t = true) :
    l.isSuffixOf (s ++ t) = true := by
  rw [List.isSuffixOf_iff_suffix] at h ⊢
  exact h.trans (List.suffix_append s t)

/-- C6: `list_files` output is sorted descending on both backends; a
local `"*.ext"` listing holds exactly the paths of stored files directly
under the directory whose name ends in the extension; and the dated-log
scenario returns the three paths newest-first on both backends. -/
theorem claim_C6 :
    (∀ (st : LFS) (d pat : String),
      List.Pairwise (fun a b => strLe b a = true) (LocalStorage.list_files st d pat)) ∧
    (∀ (st : RState) (d pat : String),
      List.Pairwise (fun a b => strLe b a = true)
        (GoogleDriveStorage.list_files st d pat).1) ∧
    (∀ (st : LFS) (d : String) (ext : List Char) (p : String),
      p ∈ LocalStorage.list_files st d (String.mk ('*' :: ext)) ↔
        (LocalStorage.dirExists st d = true ∧ ∃ bytes, (p, bytes) ∈ st.files ∧
          ∃ name, LocalStorage.nameUnder d p = some name ∧
            ext.isSuffixOf name.data = true)) ∧
    LocalStorage.list_files c6St "logs" "*.md" =
      ["logs/2026-01-03.md", "logs/2026-01-02.md", "logs/2026-01-01.md"] ∧
    (GoogleDriveStorage.list_files c6R "logs" "*.md").1 =
      ["logs/2026-01-03.md", "logs/2026-01-02.md", "logs/2026-01-01.md"] := by
  refine ⟨?_, ?_, ?_, by decide, by decide⟩
  · intro st d pat
    rw [LocalStorage.list_files]
    split
    · exact sortDesc_sorted _
    · exact List.Pairwise.nil
  · intro st d pat
    rw [GoogleDriveStorage.list_files]
    cases hres : GoogleDriveStorage.resolveFolderId st d with
    | mk res st1 =>
      cases res with
      | error e =>
        dsimp only
        exact List.Pairwise.nil
      | ok folderId =>
        dsimp only
        exact sortDesc_sorted _
  · intro st d ext p
    rw [LocalStorage.list_files]
    by_cases hd : LocalStorage.dirExists st d = true
    · rw [if_pos hd, mem_sortDesc, List.mem_filterMap]
      simp only [hd, true_and]
      constructor
      · rintro ⟨e, he, hfe⟩
        cases hn : LocalStorage.nameUnder d e.1 with
        | none =>
          rw [hn] at hfe
          simp at hfe
        | some name =>
          rw [hn] at hfe
          dsimp only at hfe
          rw [LocalStorage.globMatch] at hfe
          by_cases hg : ext.isSuffixOf name.data = true
          · rw [hg, if_pos rfl] at hfe
            injection hfe with hp
            subst hp
            exact ⟨e.2, he, name, hn, hg⟩
          · rw [Bool.not_eq_true] at hg
            rw [hg, if_neg (by decide)] at hfe
            cases hfe
      · rintro ⟨bytes, hmem, name, hn, hg⟩
        refine ⟨(p, bytes), hmem, ?_⟩
        dsimp only
        rw [hn]
        dsimp only
        rw [LocalStorage.globMatch, hg, if_pos rfl]
    · rw [if_neg hd]
      simp [hd]

theorem listSuffixAux (d : Drive) (folderId : String) (dir : String) (sfx : List Char)
    (p : String)
    (h : p ∈ sortDesc (((queryChildren d folderId).filter
        (fun f => decide (sfx = []) || isSubChars sfx f.name.data)).filterMap
      (fun f => if decide (sfx = []) || sfx.isSuffixOf f.name.data then
          some (dir ++ "/" ++ f.name) else none))) :
    sfx.isSuffixOf p.data = true := by
  rw [mem_sortDesc, List.mem_filterMap] at h
  obtain ⟨f, hf, hsome⟩ := h
  by_cases he : sfx = []
  · subst he
    exact List.isSuffixOf_iff_suffix.mpr List.nil_suffix
  · rw [decide_eq_false he, Bool.false_or] at hsome
    by_cases hs : sfx.isSuffixOf f.name.data = true
    · rw [hs, if_pos rfl] at hsome
      injection hsome with hp
      subst hp
      have hdata : (dir ++ "/" ++ f.name).data = (dir.data ++ ['/']) ++ f.name.data := by
        rw [String.data_append, String.data_append]
      rw [hdata]
      exact isSuffixOf_append_left _ _ _ hs
    · rw [Bool.not_eq_true] at hs
      rw [hs, if_neg (by decide)] at hsome
      cases hsome

/-- C9 (amended): the remote backend queries by a name-contains
heuristic but then filters results by a true suffix check, so the
returned paths never over-match: every result of a `"*.ext"` listing
ends in the extension.  The heuristic is still observable — the listing
caches the id of every fetched child, including a `"foo.md.bak"` that
merely contains `".md"`. -/
theorem claim_C9 :
    (∀ (st : RState) (d : String) (ext : List Char) (p : String),
        p ∈ (GoogleDriveStorage.list_files st d (String.mk ('*' :: ext))).1 →
        ext.isSuffixOf p.data = true) ∧
    alookup ((GoogleDriveStorage.list_files c9R "logs" "*.md").2).fileCache
        "logs/foo.md.bak" = some "f2" := by
  constructor
  · intro st d ext p hmem
    rw [GoogleDriveStorage.list_files] at hmem
    cases hres : GoogleDriveStorage.resolveFolderId st d with
    | mk res st1 =>
      rw [hres] at hmem
      cases res with
      | error e =>
        dsimp only at hmem
        cases hmem
      | ok folderId =>
        dsimp only at hmem
        exact listSuffixAux st1.drive folderId d ext p hmem
  · decide

/-- C9 witness: the `"*.md"` listing of the fixture returns
`"logs/a.md"`, which the theorem certifies ends in `".md"`. -/
theorem claim_C9_witness :
    ".md".data.isSuffixOf "logs/a.md".data = true :=
  claim_C9.1 c9R "logs" ".md".data "logs/a.md" (by decide)

/-- C9 counterexample: `"foo.md.bak"` contains `".md"` without ending in
it, yet the listing's returned results exclude it — refuting the claim
that such a file is included in the results. -/
theorem claim_C9_counterexample :
    isSubChars ".md".data "foo.md.bak".data = true ∧
    "logs/foo.md.bak" ∉ (GoogleDriveStorage.list_files c9R "logs" "*.md").1 := by
  decide

theorem joinSlash_cons_ne (x : List Char) (xs : List (List Char)) (h : xs ≠ []) :
    joinSlash (x :: xs) = x ++ '/' :: joinSlash xs := by
  cases xs with
  | nil => exact absurd rfl h
  | cons y t =>
    rw [joinSlash]
    simp

theorem joinSlash_take_lt (l : List (List Char)) :
    ∀ k, 0 < k → k < l.length → (joinSlash (l.take k)).length < (joinSlash l).length := by
  induction l with
  | nil =>
    intro k h0 hlt
    simp at hlt
  | cons x xs ih =>
    intro k h0 hlt
    obtain ⟨k2, rfl⟩ : ∃ k2, k = k2 + 1 := ⟨k - 1, by omega⟩
    rw [List.length_cons] at hlt
    have hxs : xs ≠ [] := by
      intro hh
      subst hh
      simp at hlt
    rw [List.take_succ_cons]
    by_cases hk2 : k2 = 0
    · subst hk2
      rw [List.take_zero, joinSlash, joinSlash_cons_ne x xs hxs]
      rw [List.length_append, List.length_cons]
      omega
    · have hlt2 : k2 < xs.length := by omega
      have htk : xs.take k2 ≠ [] := by
        intro hh
        have hlen := congrArg List.length hh
        rw [List.length_take, Nat.min_eq_left (Nat.le_of_lt hlt2)] at hlen
        exact hk2 hlen
      rw [joinSlash_cons_ne x _ htk, joinSlash_cons_ne x xs hxs]
      rw [List.length_append, List.length_append, List.length_cons, List.length_cons]
      have := ih k2 (by omega) hlt2
      omega

theorem stripSlashes_len (s : String) : (stripSlashes s).data.length ≤ s.data.length := by
  show (((s.data.dropWhile (fun c => c = '/')).reverse.dropWhile
      (fun c => c = '/')).reverse).length ≤ s.data.length
  rw [List.length_reverse]
  calc ((s.data.dropWhile (fun c => c = '/')).reverse.dropWhile
        (fun c => c = '/')).length
      ≤ (s.data.dropWhile (fun c => c = '/')).reverse.length :=
        (List.dropWhile_suffix _).length_le
    _ = (s.data.dropWhile (fun c => c = '/')).length := List.length_reverse _
    _ ≤ s.data.length := (List.dropWhile_suffix _).length_le

theorem joinSlashS_splitSlash (x : String) : joinSlashS (splitSlash x) = x := by
  rw [joinSlashS, splitSlash, List.map_map]
  rw [show (chSplit '/' x.data).map (String.data ∘ String.mk) =
    (chSplit '/' x.data).map id from rfl]
  rw [List.map_id, joinSlash_chSplit]

theorem joinSlashS_take_lt (parts : List String) (k : Nat) (h0 : 0 < k)
    (hlt : k < parts.length) :
    (joinSlashS (parts.take k)).data.length < (joinSlashS parts).data.length := by
  rw [joinSlashS, joinSlashS]
  show (joinSlash ((parts.take k).map String.data)).length <
    (joinSlash (parts.map String.data)).length
  rw [List.map_take]
  refine joinSlash_take_lt (parts.map String.data) k h0 ?_
  rw [List.length_map]
  exact hlt

theorem indexOf_append_self (pre : List String) (part : String) (rest : List String) :
    (pre ++ part :: rest).indexOf part ≤ pre.length := by
  induction pre with
  | nil =>
    rw [List.nil_append, List.indexOf_cons_self]
    exact Nat.zero_le _
  | cons a t ih =>
    by_cases hab : a = part
    · subst hab
      rw [List.cons_append, List.indexOf_cons_self]
      exact Nat.zero_le _
    · rw [List.cons_append, List.indexOf_cons_ne _ hab, List.length_cons]
      omega

namespace GoogleDriveStorage

theorem rfLoop_mono (d : Drive) (fp : String) (parts : List String) :
    ∀ (remaining : List String) (parentId : String) (cache qs : List (String × String))
      (res : Except String String) (cache2 qs2 : List (String × String)) (k v : String),
      rfLoop d fp parts remaining parentId cache qs = (res, cache2, qs2) →
      alookup cache k = some v → alookup cache2 k = some v := by
  intro remaining
  induction remaining with
  | nil =>
    intro parentId cache qs res cache2 qs2 k v h hk
    rw [rfLoop] at h
    simp only [Prod.mk.injEq] at h
    obtain ⟨-, h2, -⟩ := h
    rw [← h2]
    exact hk
  | cons part rest ih =>
    intro parentId cache qs res cache2 qs2 k v h hk
    rw [rfLoop] at h
    cases hc : alookup cache (joinSlashS (parts.take (parts.indexOf part + 1))) with
    | some pid =>
      rw [hc] at h
      dsimp only at h
      exact ih pid cache qs res cache2 qs2 k v h hk
    | none =>
      rw [hc] at h
      dsimp only at h
      cases hq : queryFolders d parentId part with
      | nil =>
        rw [hq] at h
        dsimp only at h
        simp only [Prod.mk.injEq] at h
        obtain ⟨-, h2, -⟩ := h
        rw [← h2]
        exact hk
      | cons f fs =>
        rw [hq] at h
        dsimp only at h
        refine ih f.id _ _ res cache2 qs2 k v h ?_
        have hkc : k ≠ joinSlashS (parts.take (parts.indexOf part + 1)) := by
          intro he
          rw [he] at hk
          exact absurd (hk.symm.trans hc) (by simp)
        rw [alookup_assocSet_other _ _ _ _ hkc]
        exact hk

theorem rfLoop_rerun (d : Drive) (fp : String) (parts : List String) :
    ∀ (remaining : List String) (parentId : String) (cache qs : List (String × String))
      (res : Except String String) (cache2 qs2 : List (String × String)),
      rfLoop d fp parts remaining parentId cache qs = (res, cache2, qs2) →
      ∀ qs1, ∃ qs3, rfLoop d fp parts remaining parentId cache2 qs1 = (res, cache2, qs3) := by
  intro remaining
  induction remaining with
  | nil =>
    intro parentId cache qs res cache2 qs2 h qs1
    rw [rfLoop] at h
    simp only [Prod.mk.injEq] at h
    obtain ⟨h1, h2, -⟩ := h
    subst h1
    subst h2
    exact ⟨qs1, by rw [rfLoop]⟩
  | cons part rest ih =>
    intro parentId cache qs res cache2 qs2 h qs1
    rw [rfLoop] at h
    cases hc : alookup cache (joinSlashS (parts.take (parts.indexOf part + 1))) with
    | some pid =>
      rw [hc] at h
      dsimp only at h
      have hc2 : alookup cache2 (joinSlashS (parts.take (parts.indexOf part + 1))) = some pid :=
        rfLoop_mono d fp parts rest pid cache qs res cache2 qs2 _ pid h hc
      obtain ⟨qs3, h3⟩ := ih pid cache qs res cache2 qs2 h qs1
      refine ⟨qs3, ?_⟩
      rw [rfLoop]
      rw [hc2]
      exact h3
    | none =>
      rw [hc] at h
      dsimp only at h
      cases hq : queryFolders d parentId part with
      | nil =>
        rw [hq] at h
        dsimp only at h
        simp only [Prod.mk.injEq] at h
        obtain ⟨h1, h2, -⟩ := h
        subst h1
        subst h2
        refine ⟨qs1 ++ [(parentId, part)], ?_⟩
        rw [rfLoop]
        rw [hc]
        dsimp only
        rw [hq]
      | cons f fs =>
        rw [hq] at h
        dsimp only at h
        have hset : alookup (assocSet cache
            (joinSlashS (parts.take (parts.indexOf part + 1))) f.id)
            (joinSlashS (parts.take (parts.indexOf part + 1))) = some f.id :=
          alookup_assocSet_self _ _ _
        have hc2 : alookup cache2 (joinSlashS (parts.take (parts.indexOf part + 1))) =
            some f.id :=
          rfLoop_mono d fp parts rest f.id _ _ res cache2 qs2 _ f.id h hset
        obtain ⟨qs3, h3⟩ := ih f.id _ _ res cache2 qs2 h qs1
        refine ⟨qs3, ?_⟩
        rw [rfLoop]
        rw [hc2]
        exact h3

theorem rfLoop_newkey (d : Drive) (fp : String) (parts : List String)
    (hfplen : (joinSlashS parts).data.length ≤ fp.data.length) :
    ∀ (remaining pre : List String), parts = pre ++ remaining →
      ∀ (parentId : String) (cache qs : List (String × String))
        (res : Except String String) (cache2 qs2 : List (String × String)) (v : String),
      rfLoop d fp parts remaining parentId cache qs = (res, cache2, qs2) →
      alookup cache fp = none → alookup cache2 fp = some v →
      res = .ok v := by
  intro remaining
  induction remaining with
  | nil =>
    intro pre hpre parentId cache qs res cache2 qs2 v h hn hs
    rw [rfLoop] at h
    simp only [Prod.mk.injEq] at h
    obtain ⟨-, h2, -⟩ := h
    rw [← h2] at hs
    exact absurd (hn.symm.trans hs) (by simp)
  | cons part rest ih =>
    intro pre hpre parentId cache qs res cache2 qs2 v h hn hs
    rw [rfLoop] at h
    cases hc : alookup cache (joinSlashS (parts.take (parts.indexOf part + 1))) with
    | some pid =>
      rw [hc] at h
      dsimp only at h
      exact ih (pre ++ [part]) (by rw [hpre]; simp) pid cache qs res cache2 qs2 v h hn hs
    | none =>
      rw [hc] at h
      dsimp only at h
      cases hq : queryFolders d parentId part with
      | nil =>
        rw [hq] at h
        dsimp only at h
        simp only [Prod.mk.injEq] at h
        obtain ⟨-, h2, -⟩ := h
        rw [← h2] at hs
        exact absurd (hn.symm.trans hs) (by simp)
      | cons f fs =>
        rw [hq] at h
        dsimp only at h
        by_cases hfp : fp = joinSlashS (parts.take (parts.indexOf part + 1))
        · have hmem : part ∈ parts := by
            rw [hpre]
            exact List.mem_append_right _ (List.mem_cons_self _ _)
          have hidx_lt : parts.indexOf part < parts.length :=
            List.indexOf_lt_length.mpr hmem
          have hidx_le : parts.indexOf part ≤ pre.length := by
            rw [hpre]
            exact indexOf_append_self pre part rest
          have hlen_eq : parts.indexOf part + 1 = parts.length := by
            by_contra hne2
            have hlt : parts.indexOf part + 1 < parts.length := by omega
            have hlt2 := joinSlashS_take_lt parts (parts.indexOf part + 1) (by omega) hlt
            have hceq : fp.data.length =
                (joinSlashS (parts.take (parts.indexOf part + 1))).data.length := by
              rw [hfp]
            omega
          have hplen : parts.length = pre.length + (rest.length + 1) := by
            rw [hpre, List.length_append, List.length_cons]
          have hrest : rest = [] := by
            refine List.eq_nil_of_length_eq_zero ?_
            omega
          subst hrest
          rw [rfLoop] at h
          simp only [Prod.mk.injEq] at h
          obtain ⟨h1, h2, -⟩ := h
          rw [← h2, hfp, alookup_assocSet_self] at hs
          injection hs with hv
          rw [← h1, hv]
        · have hn2 : alookup (assocSet cache
              (joinSlashS (parts.take (parts.indexOf part + 1))) f.id) fp = none := by
            rw [alookup_assocSet_other _ _ _ _ hfp]
            exact hn
          exact ih (pre ++ [part]) (by rw [hpre]; simp) f.id _ _ res cache2 qs2 v h hn2 hs

theorem resolveFolderIdQ_stable (st : RState) (fp : String) (res : Except String String)
    (st2 : RState) (qs : List (String × String))
    (h : resolveFolderIdQ st fp = (res, st2, qs)) :
    ∃ qs2, resolveFolderIdQ st2 fp = (res, st2, qs2) := by
  rw [resolveFolderIdQ] at h
  split at h
  · rename_i hfp
    simp only [Prod.mk.injEq] at h
    obtain ⟨h1, h2, -⟩ := h
    subst h1
    subst h2
    exact ⟨[], by rw [resolveFolderIdQ, if_pos hfp]⟩
  · rename_i hfp
    split at h
    · rename_i fid hc
      simp only [Prod.mk.injEq] at h
      obtain ⟨h1, h2, -⟩ := h
      subst h1
      subst h2
      exact ⟨[], by rw [resolveFolderIdQ, if_neg hfp, hc]⟩
    · rename_i hc
      dsimp only at h
      cases hr : rfLoop st.drive fp (splitSlash (stripSlashes fp))
          (splitSlash (stripSlashes fp)) st.driveId st.folderCache [] with
      | mk r1 rest2 =>
        obtain ⟨cache2, qlog⟩ := rest2
        rw [hr] at h
        simp only [Prod.mk.injEq] at h
        obtain ⟨h1, h2, -⟩ := h
        subst h1
        subst h2
        rw [resolveFolderIdQ, if_neg hfp]
        dsimp only
        cases hc2 : alookup cache2 fp with
        | some v =>
          have hfplen : (joinSlashS (splitSlash (stripSlashes fp))).data.length ≤
              fp.data.length := by
            rw [joinSlashS_splitSlash]
            exact stripSlashes_len fp
          have hval := rfLoop_newkey st.drive fp (splitSlash (stripSlashes fp)) hfplen
            (splitSlash (stripSlashes fp)) [] rfl st.driveId st.folderCache [] r1 cache2
            qlog v hr hc hc2
          subst hval
          exact ⟨[], rfl⟩
        | none =>
          obtain ⟨qs3, h3⟩ := rfLoop_rerun st.drive fp (splitSlash (stripSlashes fp))
            (splitSlash (stripSlashes fp)) st.driveId st.folderCache [] r1 cache2 qlog hr []
          refine ⟨qs3, ?_⟩
          dsimp only
          rw [h3]

theorem resolveFolderId_stable (st : RState) (fp : String) (res : Except String String)
    (st2 : RState) (h : resolveFolderId st fp = (res, st2)) :
    resolveFolderId st2 fp = (res, st2) := by
  rw [resolveFolderId] at h
  cases hq : resolveFolderIdQ st fp with
  | mk r1 rest =>
    obtain ⟨stA, qlog⟩ := rest
    rw [hq] at h
    simp only [Prod.mk.injEq] at h
    obtain ⟨h1, h2⟩ := h
    subst h1
    subst h2
    obtain ⟨qs2, h3⟩ := resolveFolderIdQ_stable st fp r1 stA qlog hq
    rw [resolveFolderId, h3]

theorem resolveFolderIdQ_fileCache (st : RState) (fp : String) :
    ((resolveFolderIdQ st fp).2.1).fileCache = st.fileCache := by
  rw [resolveFolderIdQ]
  split
  · rfl
  · split
    · rfl
    · dsimp only

theorem resolveFolderId_fileCache (st : RState) (fp : String) :
    ((resolveFolderId st fp).2).fileCache = st.fileCache := by
  cases hq : resolveFolderIdQ st fp with
  | mk res rest =>
    obtain ⟨st2, qs⟩ := rest
    have h := resolveFolderIdQ_fileCache st fp
    rw [hq] at h
    rw [resolveFolderId, hq]
    exact h

theorem resolveFileId_stable (st : RState) (p : String) (st1 : RState)
    (h : resolveFileId st p = (none, st1)) :
    resolveFileId st1 p = (none, st1) := by
  rw [resolveFileId] at h
  cases hc : alookup st.fileCache p with
  | some fid =>
    rw [hc] at h
    simp at h
  | none =>
    rw [hc] at h
    dsimp only at h
    cases hf : resolveFolderId st (splitParent p).1 with
    | mk fres stA =>
      rw [hf] at h
      have hfileA : stA.fileCache = st.fileCache := by
        have h2 := resolveFolderId_fileCache st (splitParent p).1
        rw [hf] at h2
        exact h2
      cases fres with
      | error e =>
        dsimp only at h
        simp only [Prod.mk.injEq] at h
        obtain ⟨-, h2⟩ := h
        subst h2
        rw [resolveFileId, hfileA, hc]
        dsimp only
        rw [resolveFolderId_stable st (splitParent p).1 (.error e) stA hf]
      | ok parentId =>
        dsimp only at h
        cases hql : queryFilesByName stA.drive parentId (splitParent p).2 with
        | nil =>
          rw [hql] at h
          dsimp only at h
          simp only [Prod.mk.injEq] at h
          obtain ⟨-, h2⟩ := h
          subst h2
          rw [resolveFileId, hfileA, hc]
          dsimp only
          rw [resolveFolderId_stable st (splitParent p).1 (.ok parentId) stA hf]
          dsimp only
          rw [hql]
        | cons f fs =>
          rw [hql] at h
          simp at h

end GoogleDriveStorage

/-- C8: on an absent path, `append_text` is extensionally equal to
`write_text` with the same content — same result and same final state —
on both the local backend (the file does not exist on disk) and the
remote backend (the path does not resolve to a file id). -/
theorem claim_C8 :
    (∀ (st : LFS) (p : String) (c : List Char), lookupF st.files p = none →
      LocalStorage.append_text st p c = LocalStorage.write_text st p c) ∧
    (∀ (st : RState) (p : String) (c : List Char) (st1 : RState),
      GoogleDriveStorage.resolveFileId st p = (none, st1) →
      GoogleDriveStorage.append_text st p c = GoogleDriveStorage.write_text st p c) := by
  constructor
  · intro st p c h
    simp only [LocalStorage.append_text, LocalStorage.write_text, mkdirParents]
    rw [h, Option.getD_none, List.nil_append]
  · intro st p c st1 h
    have hu : GoogleDriveStorage.uploadContent st p c =
        GoogleDriveStorage.uploadContent st1 p c := by
      rw [GoogleDriveStorage.uploadContent, GoogleDriveStorage.uploadContent, h,
        GoogleDriveStorage.resolveFileId_stable st p st1 h]
    rw [GoogleDriveStorage.append_text, GoogleDriveStorage.write_text,
      GoogleDriveStorage.read_text, h]
    dsimp only
    rw [hu]

/-- C8 witness: appending to an absent path under an existing folder
equals writing it, on both backends. -/
theorem claim_C8_witness :
    LocalStorage.append_text c8L "a/new.txt" "hi".data =
      LocalStorage.write_text c8L "a/new.txt" "hi".data ∧
    GoogleDriveStorage.append_text c8R "a/new.txt" "hi".data =
      GoogleDriveStorage.write_text c8R "a/new.txt" "hi".data :=
  ⟨claim_C8.1 c8L "a/new.txt" "hi".data (by decide),
   claim_C8.2 c8R "a/new.txt" "hi".data
     ((GoogleDriveStorage.resolveFileId c8R "a/new.txt").2) (by decide)⟩

end OmApex
